import Mathlib

/-!
Verification of the webdl crawler (github.com/frizinak/webdl).

This file shallowly embeds the parts of the source that the claims are
about:

* `web/selector.go` — the selector-group parser (`NewSelector`,
  `newSelector`, the regexes `commaRE` and `attrRE`);
* the `HREF` url resolver (package `web`), over a model of the subset of
  Go's `net/url` (`url.Parse`, `URL.String`) that the resolver exercises
  on hierarchical `scheme://host/path?query` URLs;
* the print-row assembly of the extractor (`(*Web).page`, the
  `qry(s.Prints, ...)` closure);
* the child-enqueue loop, the download branch and the rate-limited
  `progress` closure of `(*Web).Recurse` (`web/web.go`);
* a small-step interleaving semantics of the worker pool of
  `(*Web).Recurse`, at the atomicity granularity of the source: each
  mutex-protected section and each `sync/atomic` counter update is one
  step, and any number of in-flight task executions may interleave.

All definitions are executable; theorems about concrete inputs evaluate
by `decide` / `rfl`.
-/

namespace Webdl

/-! ## Selector model (`web/selector.go`)

`NewSelector` first runs `commaRE.ReplaceAllString(s, ",")` with
`commaRE = (,\s*,)+`, splits on `","`, trims whitespace, drops empty
clauses, and parses each clause with `newSelector`, which strips a
trailing `[identifier]` bracket group (regex `attrRE = \[([^\]]+)\]$`,
leftmost match) as the attribute selector. -/

/-- The characters matched by `\s` in Go's RE2 regexps: `[\t\n\f\r ]`. -/
def isRESpace (c : Char) : Bool :=
  c = '\t' || c = '\n' || c = '\x0c' || c = '\r' || c = ' '

/-- Whitespace trimmed by Go's `strings.TrimSpace` (ASCII subset;
the source's selector strings are ASCII). -/
def isTrimSpace (c : Char) : Bool :=
  c = '\t' || c = '\n' || c = '\x0b' || c = '\x0c' || c = '\r' || c = ' '

/-- One repetition of the group `,\s*,` of `commaRE`, matched at the head
of the character list; returns the remainder after the match. The `\s*`
is greedy; since `\s` never matches `,`, taking all spaces is exact. -/
def matchRep : List Char → Option (List Char)
  | ',' :: rest =>
    match rest.dropWhile isRESpace with
    | ',' :: r => some r
    | _ => none
  | _ => none

/-- Greedy `+` of `commaRE`: after the first repetition has matched,
keep consuming further repetitions while possible; returns the remainder
after the maximal match. Each repetition consumes at least two
characters, so fuel equal to the list length always suffices. -/
def matchRepsMoreF : Nat → List Char → List Char
  | 0, cs => cs
  | fuel + 1, cs =>
    match matchRep cs with
    | none => cs
    | some r => matchRepsMoreF fuel r

/-- The full match of `commaRE = (,\s*,)+` anchored at the head of the
list: at least one repetition, then greedily more. Returns the remainder
after the match. -/
def matchReps (cs : List Char) : Option (List Char) :=
  (matchRep cs).map (matchRepsMoreF cs.length)

/-- Model of `commaRE.ReplaceAllString(s, ",")`: scan left to right; at
each position try to match `(,\s*,)+`; on a match emit a single `,` and
resume after the match, otherwise emit the character and move on. Every
iteration consumes at least one character, so fuel equal to the list
length always suffices. -/
def scanCommaF : Nat → List Char → List Char
  | 0, cs => cs
  | _ + 1, [] => []
  | fuel + 1, c :: cs =>
    match matchReps (c :: cs) with
    | some r => ',' :: scanCommaF fuel r
    | none => c :: scanCommaF fuel cs

/-- Replace every match of `commaRE = (,\s*,)+` by a single comma. -/
def scanComma (cs : List Char) : List Char :=
  scanCommaF cs.length cs

/-- Model of `strings.Split(s, ",")` on character lists. -/
def splitComma : List Char → List (List Char)
  | [] => [[]]
  | c :: cs =>
    if c = ',' then [] :: splitComma cs
    else
      match splitComma cs with
      | [] => [[c]]
      | l :: ls => (c :: l) :: ls

/-- Model of `strings.TrimSpace` on character lists. -/
def trimChars (cs : List Char) : List Char :=
  ((cs.dropWhile isTrimSpace).reverse.dropWhile isTrimSpace).reverse

/-- One parsed selector clause (struct `Selector` of `web/selector.go`):
a CSS query plus an optional attribute name (`""` when absent). -/
structure Selector where
  Query : String
  Attr : String
deriving DecidableEq, Repr

/-- Helper for `findAttr`: succeeds with `some inner` iff the list is
exactly `inner ++ [']']` with no `']'` inside `inner` — that is, iff
`[^\]]*\]$` matches the whole remainder. -/
def tryInner : List Char → Option (List Char)
  | [] => none
  | [c] => if c = ']' then some [] else none
  | c :: cs => if c = ']' then none else (tryInner cs).map (fun l => c :: l)

/-- Model of `attrRE.FindStringSubmatch` for `attrRE = \[([^\]]+)\]$`:
scan start positions left to right (RE2 is leftmost-match); at a `[`,
the match succeeds iff the rest of the string is a nonempty run of
non-`]` characters closed by a final `]`. Returns `(m[0], m[1])`:
the whole match and the captured group. -/
def findAttr : List Char → Option (List Char × List Char)
  | [] => none
  | c :: cs =>
    if c = '[' then
      match tryInner cs with
      | some inner => if inner.isEmpty then findAttr cs else some ('[' :: cs, inner)
      | none => findAttr cs
    else findAttr cs

/-- Model of `newSelector` (selector.go:40-47): strip the trailing
bracket group matched by `attrRE` from the query; its capture becomes
the attribute. -/
def newSelector (s : String) : Selector :=
  match findAttr s.toList with
  | none => ⟨s, ""⟩
  | some (whole, inner) =>
    ⟨String.mk (s.toList.take (s.toList.length - whole.length)), String.mk inner⟩

/-- Model of `NewSelector` (selector.go:25-38): collapse repeated commas
via `commaRE`, split on `,`, trim each piece, drop empties, parse each
remaining clause. -/
def NewSelector (s : String) : List Selector :=
  let s2 := scanComma s.toList
  let sp := splitComma s2
  sp.foldl
    (fun l t =>
      let t2 := trimChars t
      if t2.isEmpty then l else l ++ [newSelector (String.mk t2)])
    []

/-- C7: selector-group parsing: `NewSelector "div>a[href]"` is the single
clause (query `div>a`, attribute `href`); `NewSelector "a, , b"` is the
two clauses `a` and `b` (the empty clause is collapsed and whitespace
trimmed); `NewSelector "a[href=^x][href]"` is the single clause with
query `a[href=^x]` and attribute `href` — only the final trailing bracket
group is stripped as the attribute selector. -/
theorem newSelector_group_cases :
    NewSelector "div>a[href]" = [⟨"div>a", "href"⟩] ∧
    NewSelector "a, , b" = [⟨"a", ""⟩, ⟨"b", ""⟩] ∧
    NewSelector "a[href=^x][href]" = [⟨"a[href=^x]", "href"⟩] := by
  refine ⟨by decide, by decide, by decide⟩

/-! ## URL resolver (`HREF`, package `web`)

`HREF(page *url.URL, href string)` copies `page`, then:

* empty `href` — return the copy unchanged;
* `href` matching `absURLRE = ^https?:` or starting with `//` — parse
  `href` as its own URL, inheriting `page`'s scheme when the parse
  yields none;
* `href` starting with `/` — clear the copy's `Path` and `RawQuery` and
  parse `uri.String() + href`;
* otherwise — clear `RawQuery` and parse `uri.String() + "/" + href`.

The resolver leans on Go's `net/url`, which is a library outside this
repository; `urlParse`/`urlToString` below model the subset of
`url.Parse`/`URL.String` that the resolver exercises: hierarchical
`[scheme:][//host][path][?query]` URLs without user info, fragments,
percent-escaping or opaque (`scheme:nonslash`) bodies — on opaque input
the model returns `none` (outside the modeled subset). `HREFvia`
abstracts the parser so that the control-flow facts below hold for any
parser, the real `net/url` included. -/

/-- Does the first list start with the second? (model of
`strings.HasPrefix` / a `^...` regex anchor, kept on character lists so
that concrete instances evaluate inside the kernel). -/
def startsList : List Char → List Char → Bool
  | _, [] => true
  | [], _ :: _ => false
  | c :: cs, p :: ps => c = p && startsList cs ps

/-- String-level prefix test over `startsList`. -/
def strStarts (s pre : String) : Bool :=
  startsList s.toList pre.toList

/-- ASCII lowercase of one character (enough for URL schemes, whose
characters are ASCII letters, digits, `+`, `-`, `.`). -/
def lowerChar (c : Char) : Char :=
  match c with
  | 'A' => 'a' | 'B' => 'b' | 'C' => 'c' | 'D' => 'd' | 'E' => 'e'
  | 'F' => 'f' | 'G' => 'g' | 'H' => 'h' | 'I' => 'i' | 'J' => 'j'
  | 'K' => 'k' | 'L' => 'l' | 'M' => 'm' | 'N' => 'n' | 'O' => 'o'
  | 'P' => 'p' | 'Q' => 'q' | 'R' => 'r' | 'S' => 's' | 'T' => 't'
  | 'U' => 'u' | 'V' => 'v' | 'W' => 'w' | 'X' => 'x' | 'Y' => 'y'
  | 'Z' => 'z' | c => c

/-- The four URL components the resolver reads and writes (fields
`Scheme`, `Host`, `Path`, `RawQuery` of `net/url.URL`). -/
structure GoURL where
  Scheme : String
  Host : String
  Path : String
  RawQuery : String
deriving DecidableEq, Repr

/-- ASCII letter, the only characters allowed to start a URL scheme. -/
def isAlpha (c : Char) : Bool :=
  ('a' ≤ c && c ≤ 'z') || ('A' ≤ c && c ≤ 'Z')

/-- Characters allowed inside a URL scheme (`getscheme` of net/url). -/
def isSchemeChar (c : Char) : Bool :=
  isAlpha c || c.isDigit || c = '+' || c = '-' || c = '.'

/-- Model of `getscheme`: split a leading `scheme:` off the input.
Returns `some (scheme, rest)` when the input starts with an ASCII
letter, continues with scheme characters and then a colon; `none`
otherwise (the whole input is then a scheme-less reference). -/
def schemeSplit : List Char → Option (List Char × List Char)
  | [] => none
  | c :: cs =>
    if isAlpha c then
      match (c :: cs).dropWhile isSchemeChar with
      | ':' :: r => some ((c :: cs).takeWhile isSchemeChar, r)
      | _ => none
    else none

/-- Model of the body of `url.Parse` after the scheme has been split
off: cut the query at the first `?`, then read `//host` up to the next
`/` when present; what remains is the path. Opaque bodies
(`scheme:` followed by something not starting in `/`) are outside the
modeled subset and yield `none`. -/
def parseRest (scheme : String) (rest : List Char) : Option GoURL :=
  let noQ := rest.takeWhile (· ≠ '?')
  let q :=
    match rest.dropWhile (· ≠ '?') with
    | '?' :: t => t
    | _ => []
  if noQ.take 2 = ['/', '/'] then
    let after := noQ.drop 2
    some ⟨scheme, String.mk (after.takeWhile (· ≠ '/')),
      String.mk (after.dropWhile (· ≠ '/')), String.mk q⟩
  else if scheme = "" || noQ.take 1 = ['/'] then
    some ⟨scheme, "", String.mk noQ, String.mk q⟩
  else none

/-- Model of `url.Parse` on the hierarchical subset (scheme lowercased,
as `url.Parse` does). -/
def urlParse (s : String) : Option GoURL :=
  match schemeSplit s.toList with
  | some (sch, rest) => parseRest (String.mk (sch.map lowerChar)) rest
  | none => parseRest "" s.toList

/-- Model of `URL.String` on the modeled subset: `scheme:` when a scheme
is set, `//host` whenever a scheme or host is set, then path, then
`?query` when a query is set. -/
def urlToString (u : GoURL) : String :=
  (if u.Scheme ≠ "" then u.Scheme ++ ":" else "")
    ++ (if u.Scheme ≠ "" || u.Host ≠ "" then "//" ++ u.Host else "")
    ++ u.Path
    ++ (if u.RawQuery ≠ "" then "?" ++ u.RawQuery else "")

/-- Model of `absURLRE = ^https?:`: the regex matches exactly the
strings starting in `http:` or `https:`. -/
def absURLRE (href : String) : Bool :=
  strStarts href "http:" || strStarts href "https:"

/-- `HREF` parameterized by the URL parser `P` (the code calls
`url.Parse`); the branch structure is translated line by line from the
source. A parse failure propagates as `none` (the Go function returns
the error). -/
def HREFvia (P : String → Option GoURL) (page : GoURL) (href : String) :
    Option GoURL :=
  let uri := page
  if href.length = 0 then some uri
  else if absURLRE href || strStarts href "//" then
    match P href with
    | none => none
    | some u => some (if u.Scheme = "" then { u with Scheme := page.Scheme } else u)
  else if strStarts href "/" then
    P (urlToString { uri with Path := "", RawQuery := "" } ++ href)
  else
    P (urlToString { uri with RawQuery := "" } ++ "/" ++ href)

/-- The resolver `HREF` over the modeled `net/url` parser. -/
def HREF (page : GoURL) (href : String) : Option GoURL :=
  HREFvia urlParse page href

/-- String-level resolution: parse the base, resolve, and render the
result, for stating the spec's string equations. -/
def resolveStr (base ref : String) : Option String :=
  match urlParse base with
  | some u => (HREF u ref).map urlToString
  | none => none

/-- C5 counterexample: the claimed equation
`resolve("https://a.com/x/y", "z") = "https://a.com/x/z"` is false —
the code appends `"/" + ref` to the base's full path, producing
`https://a.com/x/y/z`. -/
theorem resolveStr_relative_neq :
    resolveStr "https://a.com/x/y" "z" ≠ some "https://a.com/x/z" := by
  decide

/-- C5 (amended): the resolver equations as the code computes them:
`resolve(base, "")` is `base` for every base; absolute-path refs replace
the base's path and query; a relative ref is appended after a `/` to the
base's full path (so `resolve("https://a.com/x/y", "z")` is
`https://a.com/x/y/z`, not `https://a.com/x/z`); a protocol-relative ref
keeps the base's scheme. -/
theorem resolveStr_equations :
    (∀ base : GoURL, HREF base "" = some base) ∧
    resolveStr "https://a.com/x/y" "/z" = some "https://a.com/z" ∧
    resolveStr "https://a.com/x/y" "z" = some "https://a.com/x/y/z" ∧
    resolveStr "https://a.com" "//b.com/p" = some "https://b.com/p" := by
  refine ⟨fun base => rfl, by decide, by decide, by decide⟩

/-- C6 counterexample: `ftp:` is a scheme prefix, but
`HREF("https://a.com", "ftp://b.com/p")` does not parse the ref as its
own URL — `absURLRE` is `^https?:` only, so the ref falls through to the
relative branch and is appended to the base's path. -/
theorem href_ftp_not_own_url :
    HREF ⟨"https", "a.com", "", ""⟩ "ftp://b.com/p" ≠
      (urlParse "ftp://b.com/p").map
        (fun u => if u.Scheme = "" then { u with Scheme := "https" } else u) := by
  decide

/-- C6 (amended): for every parser, base URL and ref that starts with
`http:`, `https:` (the prefixes matched by `absURLRE = ^https?:`) or the
protocol-relative `//`, the resolver parses the ref as its own URL and,
when that parse yields no scheme, inherits the base's scheme. -/
theorem href_absolute_branch (P : String → Option GoURL) (page : GoURL)
    (href : String)
    (h : (absURLRE href || strStarts href "//") = true) :
    HREFvia P page href =
      match P href with
      | none => none
      | some u =>
          some (if u.Scheme = "" then { u with Scheme := page.Scheme } else u) := by
  have hne : ¬ href.length = 0 := by
    intro h0
    have he : href = "" := by
      cases href with
      | mk data =>
        cases data with
        | nil => rfl
        | cons c cs => simp [String.length] at h0
    subst he
    simp [absURLRE, strStarts, startsList] at h
  rw [HREFvia, if_neg hne, if_pos h]

/-- C6 witness: the absolute branch at a concrete parser, base and ref,
with the prefix hypothesis discharged by evaluation. -/
theorem href_absolute_branch_witness :
    (absURLRE "//b.com/p" || strStarts "//b.com/p" "//") = true ∧
    HREFvia urlParse ⟨"https", "a.com", "/x", ""⟩ "//b.com/p" =
      match urlParse "//b.com/p" with
      | none => none
      | some u =>
          some (if u.Scheme = "" then { u with Scheme := "https" } else u) :=
  ⟨by decide,
    href_absolute_branch urlParse ⟨"https", "a.com", "/x", ""⟩ "//b.com/p"
      (by decide)⟩

/-! ## Print-row assembly of the extractor (`(*Web).page`, part_000:76-83)

The extractor runs every print clause's CSS query in clause order, and
within one clause visits matches in document order (`qry` iterates
`s.Prints` and `doc.Find(...).Each`). The CSS engine is an external
capability; a document is therefore abstracted as the per-clause list of
match texts, in that visit order. For each match the source does:

    entries[qix]++
    if len(p.Prints) < entries[qix] {
        p.Prints = append(p.Prints, make([]string, len(s.Prints)))
    }
    p.Prints[entries[qix]-1][qix] = data

which `printStep` translates; `pagePrints` runs it over all clauses. -/

/-- Go's two-dimensional assignment `tbl[r][c] = v`. The callers below
only ever use it with `r` in range (proved by the table invariant), so
the out-of-range no-op of `List.set` is never exercised where Go would
panic. -/
def set2 (tbl : List (List String)) (r c : Nat) (v : String) :
    List (List String) :=
  tbl.set r ((tbl.getD r []).set c v)

/-- One match of print clause `qix` with text `data`, applied to the
state (entries map, print table); `n` is `len(s.Prints)`. -/
def printStep (n : Nat) (st : (Nat → Nat) × List (List String))
    (qix : Nat) (data : String) : (Nat → Nat) × List (List String) :=
  let e := st.1 qix + 1
  ((fun q => if q = qix then e else st.1 q),
    set2 (if st.2.length < e then st.2 ++ [List.replicate n ""] else st.2)
      (e - 1) qix data)

/-- All matches of clause `qix`, in document order. -/
def runClause (n qix : Nat) :
    List String → (Nat → Nat) × List (List String) →
      (Nat → Nat) × List (List String)
  | [], st => st
  | d :: ds, st => runClause n qix ds (printStep n st qix d)

/-- All print clauses, in clause order (`qix` is the index of the next
clause). -/
def runClauses (n : Nat) :
    Nat → List (List String) → (Nat → Nat) × List (List String) →
      (Nat → Nat) × List (List String)
  | _, [], st => st
  | qix, c :: rest, st => runClauses n (qix + 1) rest (runClause n qix c st)

/-- The print table the extractor builds for a document whose print
clauses match the given per-clause text lists (`p.Prints` at part_000:85;
the Go map `entries` starts empty, i.e. every count reads 0). -/
def pagePrints (ms : List (List String)) : List (List String) :=
  (runClauses ms.length 0 ms (fun _ => 0, [])).2

/-- Spec-shaped cell: the k-th match of clause q, or `""` when clause q
has fewer than k+1 matches. -/
def clauseMatch (ms : List (List String)) (q k : Nat) : String :=
  (ms.getD q []).getD k ""

/-- Number of rows the spec calls for: the largest per-clause match
count. -/
def maxRows : List (List String) → Nat
  | [] => 0
  | c :: cs => max c.length (maxRows cs)

/-- The positional table the spec describes: one row per match ordinal
up to the largest clause, one column per print clause, cell (k, q) the
k-th match of clause q, empty when unfilled. -/
def printTable (n : Nat) (ms : List (List String)) : List (List String) :=
  (List.range (maxRows ms)).map fun k =>
    (List.range n).map fun q => clauseMatch ms q k

/-- The entries map after the given clauses have been fully processed. -/
def entriesOf (ms : List (List String)) : Nat → Nat :=
  fun q => (ms.getD q []).length

theorem getElem?_range_map {α : Type} (R k : Nat) (f : Nat → α) :
    ((List.range R).map f)[k]? = if k < R then some (f k) else none := by
  by_cases h : k < R
  · simp [List.getElem?_map, List.getElem?_range h, h]
  · simp only [List.getElem?_map, h, if_false]
    rw [List.getElem?_eq_none (by simpa using Nat.le_of_not_lt h)]
    rfl

theorem set_range_map {α : Type} (R : Nat) (f : Nat → α) (i : Nat) (v : α) :
    ((List.range R).map f).set i v =
      (List.range R).map fun q => if q = i then v else f q := by
  apply List.ext_getElem?
  intro k
  rw [List.getElem?_set']
  by_cases hik : i = k
  · subst hik
    by_cases h : i < R
    · simp [getElem?_range_map, h]
    · rw [getElem?_range_map, getElem?_range_map, if_neg h, if_neg h]
      simp
  · rw [if_neg hik, getElem?_range_map, getElem?_range_map]
    by_cases h : k < R
    · rw [if_pos h, if_pos h, if_neg (Ne.symm hik)]
    · rw [if_neg h, if_neg h]

theorem replicate_eq_range_map {α : Type} (n : Nat) (x : α) :
    List.replicate n x = (List.range n).map fun _ => x := by
  apply List.ext_getElem?
  intro k
  rw [List.getElem?_replicate, getElem?_range_map]

theorem maxRows_append (xs ys : List (List String)) :
    maxRows (xs ++ ys) = max (maxRows xs) (maxRows ys) := by
  induction xs with
  | nil => simp [maxRows]
  | cons c cs ih => simp [maxRows, ih, Nat.max_assoc]

theorem getD_append_lt {α : Type} (xs ys : List α) (q : Nat) (d : α)
    (h : q < xs.length) : (xs ++ ys).getD q d = xs.getD q d := by
  simp [List.getD, List.getElem?_append, h]

theorem getD_append_ge {α : Type} (xs ys : List α) (q : Nat) (d : α)
    (h : xs.length ≤ q) : (xs ++ ys).getD q d = ys.getD (q - xs.length) d := by
  simp [List.getD, List.getElem?_append, Nat.not_lt.mpr h]

theorem clauseMatch_last (done : List (List String)) (pc : List String)
    (k : Nat) : clauseMatch (done ++ [pc]) done.length k = pc.getD k "" := by
  simp [clauseMatch, getD_append_ge done [pc] done.length [] (le_refl _),
    List.getD]

theorem clauseMatch_other (done : List (List String)) (a b : List String)
    (q k : Nat) (hne : q ≠ done.length) :
    clauseMatch (done ++ [a]) q k = clauseMatch (done ++ [b]) q k := by
  simp only [clauseMatch]
  rcases Nat.lt_or_ge q done.length with h | h
  · rw [getD_append_lt _ _ _ _ h, getD_append_lt _ _ _ _ h]
  · have h1 : done.length < q := lt_of_le_of_ne h (Ne.symm hne)
    rw [getD_append_ge _ _ _ _ h, getD_append_ge _ _ _ _ h,
      List.getD_eq_default [a] [] (by simp; omega),
      List.getD_eq_default [b] [] (by simp; omega)]

theorem getD_length_le_maxRows (done : List (List String)) (q : Nat) :
    (done.getD q []).length ≤ maxRows done := by
  induction done generalizing q with
  | nil => simp [List.getD, maxRows]
  | cons c cs ih =>
    cases q with
    | zero => simp [List.getD, maxRows]
    | succ q' =>
      rw [List.getD_cons_succ]
      exact le_trans (ih q') (Nat.le_max_right _ _)

theorem printTable_getElem? (n : Nat) (ms : List (List String)) (k : Nat) :
    (printTable n ms)[k]? =
      if k < maxRows ms then
        some ((List.range n).map fun q => clauseMatch ms q k)
      else none := by
  rw [printTable, getElem?_range_map]

theorem clauseMatch_fill (done : List (List String)) (pc : List String)
    (d : String) (q : Nat) :
    clauseMatch (done ++ [pc ++ [d]]) q pc.length =
      if q = done.length then d else clauseMatch (done ++ [pc]) q pc.length := by
  by_cases hq : q = done.length
  · subst hq
    rw [if_pos rfl, clauseMatch_last]
    simp [List.getD, List.getElem?_concat_length]
  · rw [if_neg hq]
    exact clauseMatch_other done _ _ q pc.length hq

theorem clauseMatch_blank (done : List (List String)) (pc : List String)
    (q : Nat) (hq : q ≠ done.length) (hMP : maxRows done ≤ pc.length) :
    clauseMatch (done ++ [pc]) q pc.length = "" := by
  simp only [clauseMatch]
  rcases Nat.lt_or_ge q done.length with h | h
  · rw [getD_append_lt _ _ _ _ h]
    exact List.getD_eq_default _ "" (le_trans (getD_length_le_maxRows done q) hMP)
  · have h1 : done.length < q := lt_of_le_of_ne h (Ne.symm hq)
    rw [getD_append_ge _ _ _ _ h,
      List.getD_eq_default [pc] [] (by simp; omega)]
    rfl

theorem clauseMatch_addLast (done : List (List String)) (pc : List String)
    (d : String) (q k : Nat) (hk : k ≠ pc.length) :
    clauseMatch (done ++ [pc ++ [d]]) q k = clauseMatch (done ++ [pc]) q k := by
  by_cases hq : q = done.length
  · subst hq
    rw [clauseMatch_last, clauseMatch_last]
    rcases Nat.lt_or_ge k pc.length with h | h
    · simp [List.getD, List.getElem?_append, h]
    · have hki : pc.length < k := lt_of_le_of_ne h (Ne.symm hk)
      rw [List.getD_eq_default pc "" (by omega),
        List.getD_eq_default (pc ++ [d]) "" (by simp; omega)]
  · exact clauseMatch_other done _ _ q k hq

/-- Effect of one `printStep`: when the state reflects the table for the
clauses `done` already processed plus the prefix `pc` of the clause
currently being processed (clause index `done.length < n`), consuming
one more match text `d` yields the state for `pc ++ [d]`. -/
theorem printStep_inv (n : Nat) (done : List (List String))
    (pc : List String) (d : String) :
    printStep n (entriesOf (done ++ [pc]), printTable n (done ++ [pc]))
        done.length d =
      (entriesOf (done ++ [pc ++ [d]]), printTable n (done ++ [pc ++ [d]])) := by
  have hE : entriesOf (done ++ [pc]) done.length = pc.length := by
    simp [entriesOf, getD_append_ge done [pc] done.length [] (le_refl _),
      List.getD]
  have hlen : (printTable n (done ++ [pc])).length =
      max (maxRows done) pc.length := by
    simp [printTable, maxRows_append, maxRows, List.length_map,
      List.length_range]
  have hmxOld : maxRows (done ++ [pc]) = max (maxRows done) pc.length := by
    rw [maxRows_append]; simp [maxRows]
  have hmxNew : maxRows (done ++ [pc ++ [d]]) =
      max (maxRows done) (pc.length + 1) := by
    rw [maxRows_append]; simp [maxRows]
  refine Prod.ext ?_ ?_
  · funext q
    simp only [printStep, hE]
    by_cases hq : q = done.length
    · subst hq
      simp [entriesOf, getD_append_ge done _ done.length [] (le_refl _),
        List.getD]
    · simp only [if_neg hq, entriesOf]
      rcases Nat.lt_or_ge q done.length with h | h
      · rw [getD_append_lt _ _ _ _ h, getD_append_lt _ _ _ _ h]
      · have h1 : done.length < q := lt_of_le_of_ne h (Ne.symm hq)
        rw [getD_append_ge _ _ _ _ h, getD_append_ge _ _ _ _ h,
          List.getD_eq_default [pc] [] (by simp; omega),
          List.getD_eq_default [pc ++ [d]] [] (by simp; omega)]
  · simp only [printStep, hE, Nat.add_sub_cancel]
    by_cases hMP : maxRows done ≤ pc.length
    · -- the table is one row short: a fresh row is appended and written
      rw [if_pos (by rw [hlen]; omega)]
      have hsetrow :
          (printTable n (done ++ [pc]) ++ [List.replicate n ""]).getD
              pc.length [] = List.replicate n "" := by
        rw [getD_append_ge _ _ _ _ (by rw [hlen]; omega), hlen,
          Nat.max_eq_right hMP, Nat.sub_self]
        rfl
      rw [set2, hsetrow]
      apply List.ext_getElem?
      intro k
      rw [List.getElem?_set', printTable_getElem?, hmxNew]
      by_cases hk : pc.length = k
      · subst hk
        rw [if_pos rfl, if_pos (by omega)]
        rw [List.getElem?_append_right (by rw [hlen]; omega), hlen,
          Nat.max_eq_right hMP, Nat.sub_self]
        simp only [List.getElem?_cons_zero, Option.map_eq_map,
          Option.map_some', Function.const_apply]
        congr 1
        rw [replicate_eq_range_map, set_range_map]
        apply List.map_congr_left
        intro q _
        rw [clauseMatch_fill]
        by_cases hqq : q = done.length
        · rw [if_pos hqq, if_pos hqq]
        · rw [if_neg hqq, if_neg hqq, clauseMatch_blank done pc q hqq hMP]
      · rw [if_neg hk, List.getElem?_append, hlen, Nat.max_eq_right hMP]
        by_cases hklt : k < pc.length
        · rw [if_pos hklt, printTable_getElem?, hmxOld,
            Nat.max_eq_right hMP, if_pos hklt, if_pos (by omega)]
          congr 1
          apply List.map_congr_left
          intro q _
          exact (clauseMatch_addLast done pc d q k (by omega)).symm
        · rw [if_neg hklt, if_neg (by omega),
            List.getElem?_eq_none (by simp; omega)]
    · -- the row already exists: write into it in place
      have hMP' : pc.length < maxRows done := Nat.lt_of_not_le hMP
      rw [if_neg (by rw [hlen]; omega)]
      have hrow : (printTable n (done ++ [pc])).getD pc.length [] =
          (List.range n).map fun q => clauseMatch (done ++ [pc]) q pc.length := by
        rw [List.getD, List.get?_eq_getElem?, printTable_getElem?, hmxOld,
          if_pos (by omega)]
        rfl
      rw [set2, hrow, set_range_map]
      apply List.ext_getElem?
      intro k
      rw [List.getElem?_set']
      simp only [printTable_getElem?]
      rw [hmxOld, hmxNew, Nat.max_eq_left (le_of_lt hMP'),
        Nat.max_eq_left (by omega)]
      by_cases hk : pc.length = k
      · subst hk
        rw [if_pos rfl, if_pos hMP', if_pos hMP']
        simp only [Option.map_eq_map, Option.map_some', Function.const_apply]
        congr 1
        apply List.map_congr_left
        intro q _
        rw [clauseMatch_fill]
      · rw [if_neg hk]
        by_cases hklt : k < maxRows done
        · rw [if_pos hklt, if_pos hklt]
          congr 1
          apply List.map_congr_left
          intro q _
          exact (clauseMatch_addLast done pc d q k (Ne.symm hk)).symm
        · rw [if_neg hklt, if_neg hklt]

/-- Running one whole clause extends the processed prefix by that
clause's match list. -/
theorem runClause_inv (n : Nat) (done : List (List String)) :
    ∀ (c pc : List String),
      runClause n done.length c
          (entriesOf (done ++ [pc]), printTable n (done ++ [pc])) =
        (entriesOf (done ++ [pc ++ c]), printTable n (done ++ [pc ++ c])) := by
  intro c
  induction c with
  | nil => intro pc; simp [runClause]
  | cons d ds ih =>
    intro pc
    rw [runClause, printStep_inv n done pc d, ih (pc ++ [d]),
      List.append_assoc pc [d] ds]
    rfl

theorem entriesOf_append_nil (done : List (List String)) :
    entriesOf (done ++ [[]]) = entriesOf done := by
  funext q
  simp only [entriesOf]
  rcases Nat.lt_or_ge q done.length with h | h
  · rw [getD_append_lt _ _ _ _ h]
  · rw [getD_append_ge _ _ _ _ h, List.getD_eq_default done [] h]
    rcases Nat.lt_or_ge (q - done.length) 1 with h1 | h1
    · interval_cases hq : q - done.length
      rfl
    · rw [List.getD_eq_default [[]] [] (by simpa using h1)]

theorem clauseMatch_append_nil (done : List (List String)) (q k : Nat) :
    clauseMatch (done ++ [[]]) q k = clauseMatch done q k := by
  simp only [clauseMatch]
  rcases Nat.lt_or_ge q done.length with h | h
  · rw [getD_append_lt _ _ _ _ h]
  · rw [getD_append_ge _ _ _ _ h, List.getD_eq_default done [] h]
    rcases Nat.lt_or_ge (q - done.length) 1 with h1 | h1
    · interval_cases hq : q - done.length
      rfl
    · rw [List.getD_eq_default [[]] [] (by simpa using h1)]

theorem printTable_append_nil (n : Nat) (done : List (List String)) :
    printTable n (done ++ [[]]) = printTable n done := by
  have hmx : maxRows (done ++ [[]]) = maxRows done := by
    rw [maxRows_append]; simp [maxRows]
  rw [printTable, printTable, hmx]
  apply List.map_congr_left
  intro k _
  apply List.map_congr_left
  intro q _
  exact clauseMatch_append_nil done q k

/-- Running the remaining clauses extends the processed prefix by all of
them. -/
theorem runClauses_inv (n : Nat) :
    ∀ (rest done : List (List String)),
      runClauses n done.length rest (entriesOf done, printTable n done) =
        (entriesOf (done ++ rest), printTable n (done ++ rest)) := by
  intro rest
  induction rest with
  | nil => intro done; simp [runClauses]
  | cons c cs ih =>
    intro done
    rw [runClauses]
    have h0 : (entriesOf done, printTable n done) =
        (entriesOf (done ++ [[]]), printTable n (done ++ [[]])) := by
      rw [entriesOf_append_nil, printTable_append_nil]
    rw [h0, runClause_inv n done c []]
    simp only [List.nil_append]
    have h1 : done.length + 1 = (done ++ [c]).length := by simp
    rw [h1, ih (done ++ [c]), List.append_assoc]
    rfl

/-- The extractor's print table is exactly the positional table the spec
describes. -/
theorem pagePrints_eq (ms : List (List String)) :
    pagePrints ms = printTable ms.length ms := by
  have h := runClauses_inv ms.length ms []
  have h0 : entriesOf [] = (fun _ : Nat => 0) := by
    funext q
    simp [entriesOf, List.getD]
  have h1 : printTable ms.length [] = ([] : List (List String)) := by
    simp [printTable, maxRows]
  rw [h0, h1, List.length_nil, List.nil_append] at h
  rw [pagePrints, h]

/-- C4: for every document (abstracted as the per-clause lists of match
texts, in the extractor's visit order), the print table places the k-th
match of clause i in row k, column i; every row has one column per print
clause and unfilled cells are empty — `printTable` states exactly this
shape. In particular, with clause A matching three elements and clause B
one, there are three rows, row 0 has both columns filled and rows 1-2
have B's column empty. -/
theorem prints_positional_table :
    (∀ ms : List (List String), pagePrints ms = printTable ms.length ms) ∧
    pagePrints [["a1", "a2", "a3"], ["b1"]] =
      [["a1", "b1"], ["a2", ""], ["a3", ""]] :=
  ⟨pagePrints_eq, by decide⟩

/-! ## Child enqueueing (`Recurse`, web.go:180-209)

After a page task succeeds, a detached goroutine sends every discovered
download and then every discovered link onto the frontier channel. Each
send carries a `pageTask` whose `PageInfo` holds the child URL, a
reference to the parent's `PageInfo`, the parent task's title (downloads
only; links leave it zero) and an ordinal index `i`, inverted to
`len-1-i` when the matching reversal option is set. -/

/-- The `PageInfo` struct: URL, optional parent reference, title and
per-page ordinal index. The index is only ever assigned `i` or
`len-i-1` with `i < len`, both nonnegative, so `Nat` is faithful to the
Go `int`. -/
inductive PageInfoT : Type where
  | mk (url : String) (ref : Option PageInfoT) (title : String) (index : Nat)

/-- One frontier task as built by the enqueue goroutine (`pageTask`:
an embedded `PageInfo` plus the `Download` flag). -/
structure PageTaskT where
  url : String
  ref : Option PageInfoT
  title : String
  index : Nat
  download : Bool

/-- The result of fetching and extracting one page, as the enqueue
goroutine consumes it: the page's own info and the discovered link and
download URLs in document-discovery order. -/
structure PageT where
  info : PageInfoT
  links : List String
  downloads : List String

/-- One of the two indexed `for i, su := range ...` send loops:
`total` is the length of the full list, `i` the running index. -/
def emitTasks (isDl rev : Bool) (total : Nat) (parent : PageInfoT)
    (title : String) : Nat → List String → List PageTaskT
  | _, [] => []
  | i, su :: rest =>
    ⟨su, some parent, title, if rev then total - i - 1 else i, isDl⟩ ::
      emitTasks isDl rev total parent title (i + 1) rest

/-- The enqueue goroutine (web.go:180-209): all downloads (with the
parent task's title), then all links (title left zero), each loop
running over its list in discovery order. -/
def enqueueChildren (revDownloads revLinks : Bool) (taskTitle : String)
    (p : PageT) : List PageTaskT :=
  emitTasks true revDownloads p.downloads.length p.info taskTitle 0 p.downloads
    ++ emitTasks false revLinks p.links.length p.info "" 0 p.links

theorem emitTasks_length (isDl rev : Bool) (total : Nat)
    (parent : PageInfoT) (title : String) :
    ∀ (l : List String) (i : Nat),
      (emitTasks isDl rev total parent title i l).length = l.length := by
  intro l
  induction l with
  | nil => intro i; rfl
  | cons su rest ih =>
    intro i
    rw [emitTasks, List.length_cons, List.length_cons, ih (i + 1)]

theorem emitTasks_getElem? (isDl rev : Bool) (total : Nat)
    (parent : PageInfoT) (title : String) :
    ∀ (l : List String) (i j : Nat),
      (emitTasks isDl rev total parent title i l)[j]? =
        l[j]?.map fun su =>
          ⟨su, some parent, title,
            if rev then total - (i + j) - 1 else i + j, isDl⟩ := by
  intro l
  induction l with
  | nil => intro i j; simp [emitTasks]
  | cons su rest ih =>
    intro i j
    cases j with
    | zero => simp [emitTasks]
    | succ j' =>
      rw [emitTasks, List.getElem?_cons_succ, ih (i + 1) j',
        List.getElem?_cons_succ]
      have harg : i + 1 + j' = i + (j' + 1) := by omega
      rw [harg]

/-- C8: the emitted children are all discovered downloads, then all
discovered links; within each kind the emission order is the document
discovery order, and the j-th child of a kind carries ordinal index `j`,
or `N-1-j` when that kind's reversal option is set. Downloads inherit
the parent task's title and both kinds point back at the parent's page
info. -/
theorem enqueue_children_order (revD revL : Bool) (taskTitle : String)
    (p : PageT) (j : Nat) :
    (enqueueChildren revD revL taskTitle p).length =
        p.downloads.length + p.links.length ∧
    (enqueueChildren revD revL taskTitle p)[j]? =
      (if j < p.downloads.length then
        p.downloads[j]?.map fun su =>
          ⟨su, some p.info, taskTitle,
            if revD then p.downloads.length - j - 1 else j, true⟩
      else
        (p.links[j - p.downloads.length]?).map fun su =>
          ⟨su, some p.info, "",
            if revL then p.links.length - (j - p.downloads.length) - 1
            else j - p.downloads.length, false⟩) := by
  constructor
  · rw [enqueueChildren, List.length_append, emitTasks_length,
      emitTasks_length]
  · rw [enqueueChildren, List.getElem?_append, emitTasks_length]
    by_cases h : j < p.downloads.length
    · rw [if_pos h, if_pos h, emitTasks_getElem?]
      simp
    · rw [if_neg h, if_neg h, emitTasks_getElem?]
      simp

/-! ## The download branch of the worker loop (web.go:153-165)

For a download task that survived the visited check, the worker runs

    if c.Download == nil ||
        c.DownloadCallback == nil ||
        !c.Download(u.PageInfo) {
        doDone()
        continue
    }
    err := w.download(ctx, u.PageInfo, c.DownloadCallback)
    progress(err, false)
    doDone()

Go's `||` short-circuits left to right, so with a nil callback the
predicate is never evaluated. `w.download` issues the fetch and invokes
the callback only when the fetch succeeded. -/

/-- Observable effects of one run of the download branch. -/
structure DownloadBranch where
  predicateCalled : Bool
  fetchIssued : Bool
  callbackInvoked : Bool
  outstandingDecremented : Bool
deriving DecidableEq, Repr

/-- The download branch, as a function of whether `c.Download` is
non-nil, whether `c.DownloadCallback` is non-nil, what the predicate
would return, and whether the fetch would succeed; the three `if`s
mirror the three short-circuited disjuncts. -/
def downloadBranch (hasPredicate hasCallback predicateResult fetchOk :
    Bool) : DownloadBranch :=
  if !hasPredicate then ⟨false, false, false, true⟩
  else if !hasCallback then ⟨false, false, false, true⟩
  else if !predicateResult then ⟨true, false, false, true⟩
  else ⟨true, true, fetchOk, true⟩

/-- C10: with a nil download predicate or a nil download callback the
task completes (outstanding is decremented) with no fetch and no
callback invocation; and with a nil callback the predicate itself is
never called, whatever it would return, because the nil checks
short-circuit first. -/
theorem download_nil_shortcircuit :
    ∀ (hasPredicate predicateResult fetchOk : Bool),
      downloadBranch hasPredicate false predicateResult fetchOk =
        ⟨false, false, false, true⟩ ∧
      downloadBranch false true predicateResult fetchOk =
        ⟨false, false, false, true⟩ := by
  decide

/-! ## The rate-limited progress closure (web.go:112-122)

    progress := func(err error, force bool) {
        if errors.As(err, &context.Canceled) {
            return
        }
        if force || err != nil || time.Since(lastProgress) > c.ProgressInterval {
            c.Progress(err, dlCount, dlTotal)
            lastProgress = time.Now()
        }
    }
    defer progress(nil, true)

Every task's terminal transition calls this closure (with the task's
error or nil), and `c.Progress` is invoked nowhere else. -/

/-- An arbitrary non-nil Go error value. -/
structure GoErr where
  msg : String
deriving DecidableEq, Repr

/-- Model of `errors.As(err, &context.Canceled)`. `context.Canceled` is
a package variable of interface type `error`, so the target type is
`*error`, and `errors.As` reports whether some error in `err`'s chain is
assignable to `error` — which every non-nil error is. The call therefore
returns true for every non-nil `err` and false for nil (and as a side
effect overwrites `context.Canceled` with `err`); it does not test
whether `err` is the cancellation error. -/
def errAsCanceled (err : Option GoErr) : Bool :=
  err.isSome

/-- Whether one call `progress(err, force)` reaches `c.Progress`, with
the elapsed time since the last report and the configured minimum
interval abstracted as naturals. -/
def progressEmits (err : Option GoErr) (force : Bool)
    (sinceLast interval : Nat) : Bool :=
  if errAsCanceled err then false
  else if force || err.isSome || decide (sinceLast > interval) then true
  else false

/-- C3 (the code contradicts the claim): a task that ends in an error
NEVER reaches the progress sink — `errAsCanceled` is true for every
non-nil error, so the closure returns before calling `c.Progress` —
while the final forced report (the `defer`) always goes through and
nil-error reports are emitted exactly when the interval has elapsed. -/
theorem progress_error_never_emitted :
    (∀ (e : GoErr) (force : Bool) (sinceLast interval : Nat),
        progressEmits (some e) force sinceLast interval = false) ∧
    (∀ sinceLast interval : Nat,
        progressEmits none true sinceLast interval = true) ∧
    (∀ sinceLast interval : Nat,
        progressEmits none false sinceLast interval =
          decide (sinceLast > interval)) := by
  refine ⟨fun e force s i => rfl, fun s i => rfl, fun s i => ?_⟩
  simp [progressEmits, errAsCanceled]

/-! ## Small-step model of the crawl orchestrator (`Recurse`, web.go:84-236)

The worker-pool body is modeled as an interleaving transition system at
the source's atomicity granularity: each `sync/atomic` counter update is
one step; the read-locked membership check and the write-locked
check-then-insert are each one step (the mutex makes each section
atomic); the page fetch+parse+extract is one step whose outcome the
oracle `w : String → Option (List String × List String)` determines
(`none` = fetch/parse error, `some (links, downloads)` = the extracted
child URLs); the detached enqueue goroutine becomes a pending buffer
whose elements transfer to the channel one send per step. The channel
is modeled as an unbounded queue and the number of concurrently
in-flight task executions is unbounded: both only enlarge the set of
interleavings relative to the bounded channel and the fixed worker pool,
so the invariants proved below cover every execution of the source.
Cancellation never fires in the modeled runs (`ctx.Err() = nil`
throughout, hence `gerr` stays nil and the loop-top guards pass); the
claims proved on this model assume an uncancelled run. The uint64
counters are carried as naturals with every update taken mod 2^64,
exactly as `atomic.AddUint64` wraps (`doDone` adds `^uint64(0)`). -/

/-- The modulus of Go's uint64 arithmetic. -/
def U64 : Nat := 18446744073709551616

/-- `atomic.AddUint64(&x, n)`. -/
def inc64 (a n : Nat) : Nat := (a + n) % U64

/-- `atomic.AddUint64(&x, ^uint64(0))`, i.e. wrapping decrement. -/
def dec64 (a : Nat) : Nat := (a + (U64 - 1)) % U64

/-- One frontier task: a URL and whether it is a download task
(`pageTask`, with `PageInfo` reduced to the URL — parent, title and
index play no role in the scheduling, dedup or counter logic). -/
structure CrawlTask where
  url : String
  download : Bool
deriving DecidableEq, Repr

/-- Where one in-flight task execution stands in the worker-loop body.
The data of the page phases is the oracle's extraction result. -/
inductive WorkPhase : Type where
  | pulled
  | counted
  | dupFound
  | checkedAbsent
  | owner
  | dlFetch
  | gotPage (links downloads : List String)
  | addedTasks (links downloads : List String)
  | countedTotal (links downloads : List String)
  | preDone
deriving DecidableEq, Repr

/-- One in-flight task execution. -/
structure Flight where
  task : CrawlTask
  phase : WorkPhase
deriving DecidableEq, Repr

/-- The shared state of one `Recurse` run: the channel `ch`, the pending
buffers of the detached enqueue goroutines, the in-flight executions,
the visited set `done`, the log of issued HTTP fetches (one entry per
`w.page` / `w.download` call), and the three uint64 counters. -/
structure CrawlState where
  queue : List CrawlTask
  buffers : List (List CrawlTask)
  active : List Flight
  done : List String
  fetched : List String
  tasksVar : Nat
  dlCount : Nat
  dlTotal : Nat
deriving DecidableEq, Repr

/-- The tasks the enqueue goroutine of one page will send: every
download, then every link (web.go:180-209). -/
def childTasks (links downloads : List String) : List CrawlTask :=
  downloads.map (fun u => ⟨u, true⟩) ++ links.map (fun u => ⟨u, false⟩)

/-- The state at the start of a run: one page task per seed on the
channel, `tasks` and `dlTotal` at `uint64(len(urls))` (web.go:99-105,
218-220; a seed list never reaches 2^64 entries, so the conversion is
exact). -/
def initState (seeds : List String) : CrawlState where
  queue := seeds.map fun u => ⟨u, false⟩
  buffers := []
  active := []
  done := []
  fetched := []
  tasksVar := seeds.length
  dlCount := 0
  dlTotal := seeds.length

/-- One atomic step of the modeled run. -/
inductive Step (w : String → Option (List String × List String)) :
    CrawlState → CrawlState → Prop where
  /-- a worker receives a task from `ch` (web.go:126). -/
  | pull (s : CrawlState) (t : CrawlTask) (rest : List CrawlTask)
      (hq : s.queue = t :: rest) :
      Step w s { s with queue := rest,
                        active := s.active ++ [⟨t, .pulled⟩] }
  /-- `atomic.AddUint64(&dlCount, 1)` (web.go:135). -/
  | countTask (s : CrawlState) (pre post : List Flight) (t : CrawlTask)
      (ha : s.active = pre ++ ⟨t, .pulled⟩ :: post) :
      Step w s { s with active := pre ++ ⟨t, .counted⟩ :: post,
                        dlCount := inc64 s.dlCount 1 }
  /-- read-locked lookup finds the URL already visited (web.go:137-142). -/
  | rcheckDup (s : CrawlState) (pre post : List Flight) (t : CrawlTask)
      (ha : s.active = pre ++ ⟨t, .counted⟩ :: post)
      (hd : t.url ∈ s.done) :
      Step w s { s with active := pre ++ ⟨t, .dupFound⟩ :: post }
  /-- read-locked lookup misses (web.go:137-143). -/
  | rcheckNew (s : CrawlState) (pre post : List Flight) (t : CrawlTask)
      (ha : s.active = pre ++ ⟨t, .counted⟩ :: post)
      (hd : t.url ∉ s.done) :
      Step w s { s with active := pre ++ ⟨t, .checkedAbsent⟩ :: post }
  /-- write-locked re-check finds the URL inserted meanwhile
  (web.go:144-149). -/
  | wcheckDup (s : CrawlState) (pre post : List Flight) (t : CrawlTask)
      (ha : s.active = pre ++ ⟨t, .checkedAbsent⟩ :: post)
      (hd : t.url ∈ s.done) :
      Step w s { s with active := pre ++ ⟨t, .dupFound⟩ :: post }
  /-- write-locked re-check misses and inserts: this execution now owns
  the URL (web.go:144-151). -/
  | insertOwner (s : CrawlState) (pre post : List Flight) (t : CrawlTask)
      (ha : s.active = pre ++ ⟨t, .checkedAbsent⟩ :: post)
      (hd : t.url ∉ s.done) :
      Step w s { s with active := pre ++ ⟨t, .owner⟩ :: post,
                        done := t.url :: s.done }
  /-- the download-branch condition short-circuits true (nil predicate,
  nil callback, or predicate false — the predicate may consult the file
  system, so both outcomes stay reachable) (web.go:153-159). -/
  | skipDownload (s : CrawlState) (pre post : List Flight) (t : CrawlTask)
      (ha : s.active = pre ++ ⟨t, .owner⟩ :: post)
      (hdl : t.download = true) :
      Step w s { s with active := pre ++ ⟨t, .preDone⟩ :: post }
  /-- the download-branch condition passes (web.go:153-161). -/
  | startDownload (s : CrawlState) (pre post : List Flight) (t : CrawlTask)
      (ha : s.active = pre ++ ⟨t, .owner⟩ :: post)
      (hdl : t.download = true) :
      Step w s { s with active := pre ++ ⟨t, .dlFetch⟩ :: post }
  /-- `w.download` issues the HTTP fetch (web.go:161). -/
  | fetchDownload (s : CrawlState) (pre post : List Flight) (t : CrawlTask)
      (ha : s.active = pre ++ ⟨t, .dlFetch⟩ :: post) :
      Step w s { s with active := pre ++ ⟨t, .preDone⟩ :: post,
                        fetched := t.url :: s.fetched }
  /-- `w.page` issues the HTTP fetch and fails (web.go:167-172). -/
  | fetchPageErr (s : CrawlState) (pre post : List Flight) (t : CrawlTask)
      (ha : s.active = pre ++ ⟨t, .owner⟩ :: post)
      (hdl : t.download = false) (hw : w t.url = none) :
      Step w s { s with active := pre ++ ⟨t, .preDone⟩ :: post,
                        fetched := t.url :: s.fetched }
  /-- `w.page` issues the HTTP fetch and extracts children
  (web.go:167). -/
  | fetchPageOk (s : CrawlState) (pre post : List Flight) (t : CrawlTask)
      (l d : List String)
      (ha : s.active = pre ++ ⟨t, .owner⟩ :: post)
      (hdl : t.download = false) (hw : w t.url = some (l, d)) :
      Step w s { s with active := pre ++ ⟨t, .gotPage l d⟩ :: post,
                        fetched := t.url :: s.fetched }
  /-- `atomic.AddUint64(&tasks, uint64(len(p.Links)+len(p.Downloads)))`
  (web.go:173). -/
  | addTasks (s : CrawlState) (pre post : List Flight) (t : CrawlTask)
      (l d : List String)
      (ha : s.active = pre ++ ⟨t, .gotPage l d⟩ :: post) :
      Step w s { s with active := pre ++ ⟨t, .addedTasks l d⟩ :: post,
                        tasksVar := inc64 s.tasksVar (l.length + d.length) }
  /-- `atomic.AddUint64(&dlTotal, ...)` (web.go:174). -/
  | addTotal (s : CrawlState) (pre post : List Flight) (t : CrawlTask)
      (l d : List String)
      (ha : s.active = pre ++ ⟨t, .addedTasks l d⟩ :: post) :
      Step w s { s with active := pre ++ ⟨t, .countedTotal l d⟩ :: post,
                        dlTotal := inc64 s.dlTotal (l.length + d.length) }
  /-- the `go func` of web.go:180 is spawned: its sends become a pending
  buffer (the print callback between lines 176-178 touches no modeled
  state). -/
  | spawnChildren (s : CrawlState) (pre post : List Flight) (t : CrawlTask)
      (l d : List String)
      (ha : s.active = pre ++ ⟨t, .countedTotal l d⟩ :: post) :
      Step w s { s with active := pre ++ ⟨t, .preDone⟩ :: post,
                        buffers := s.buffers ++ [childTasks l d] }
  /-- `doDone()` on the duplicate path (web.go:140, 147). -/
  | finishDup (s : CrawlState) (pre post : List Flight) (t : CrawlTask)
      (ha : s.active = pre ++ ⟨t, .dupFound⟩ :: post) :
      Step w s { s with active := pre ++ post,
                        tasksVar := dec64 s.tasksVar }
  /-- `doDone()` at the end of any non-duplicate path (web.go:157, 163,
  170, 212). -/
  | finishTask (s : CrawlState) (pre post : List Flight) (t : CrawlTask)
      (ha : s.active = pre ++ ⟨t, .preDone⟩ :: post) :
      Step w s { s with active := pre ++ post,
                        tasksVar := dec64 s.tasksVar }
  /-- one pending enqueue goroutine performs its next channel send
  (web.go:186, 201). -/
  | transfer (s : CrawlState) (bpre bpost : List (List CrawlTask))
      (c : CrawlTask) (rest : List CrawlTask)
      (hb : s.buffers = bpre ++ (c :: rest) :: bpost) :
      Step w s { s with buffers := bpre ++ rest :: bpost,
                        queue := s.queue ++ [c] }

/-- States reachable in one run from the given seeds. -/
def Reach (w : String → Option (List String × List String))
    (seeds : List String) (s : CrawlState) : Prop :=
  Relation.ReflTransGen (Step w) (initState seeds) s

/-! ### The dedup invariant: each URL is fetched at most once -/

/-- Phases in which the execution has inserted its URL into the visited
set but has not yet issued (or will never issue) its fetch. -/
def ownerish : WorkPhase → Bool
  | .owner => true
  | .dlFetch => true
  | _ => false

/-- The URLs owned by in-flight executions that passed the write-locked
insert but have not fetched yet. -/
def owners (l : List Flight) : List String :=
  (l.filter fun fl => ownerish fl.phase).map fun fl => fl.task.url

theorem owners_append (a b : List Flight) :
    owners (a ++ b) = owners a ++ owners b := by
  simp [owners, List.filter_append]

theorem owners_cons (fl : Flight) (l : List Flight) :
    owners (fl :: l) =
      (if ownerish fl.phase = true then [fl.task.url] else []) ++ owners l := by
  by_cases h : ownerish fl.phase = true
  · simp [owners, List.filter_cons, h]
  · simp [owners, List.filter_cons, h]

/-- The invariant behind at-most-once fetching: the fetch log has no
duplicates, everything fetched is in the visited set, and each owned URL
is visited, unfetched, and owned by exactly one execution. -/
structure InvDedup (s : CrawlState) : Prop where
  fetchedNodup : s.fetched.Nodup
  fetchedDone : ∀ u ∈ s.fetched, u ∈ s.done
  ownersProp : ∀ u ∈ owners s.active, u ∈ s.done ∧ u ∉ s.fetched
  ownersNodup : (owners s.active).Nodup

theorem invDedup_same (s s' : CrawlState) (hd : s'.done = s.done)
    (hf : s'.fetched = s.fetched) (ho : owners s'.active = owners s.active)
    (h : InvDedup s) : InvDedup s' := by
  refine ⟨hf ▸ h.fetchedNodup, ?_, ?_, ho ▸ h.ownersNodup⟩
  · rw [hf, hd]; exact h.fetchedDone
  · rw [ho, hd, hf]; exact h.ownersProp

/-- The owned-URL list around an in-flight execution whose phase is not
`ownerish`. -/
theorem owners_middle_not (pre post : List Flight) (t : CrawlTask)
    (ph : WorkPhase) (h : ownerish ph = false) :
    owners (pre ++ ⟨t, ph⟩ :: post) = owners pre ++ owners post := by
  rw [owners_append, owners_cons, h]
  simp

/-- The owned-URL list around an in-flight execution whose phase is
`ownerish`. -/
theorem owners_middle_yes (pre post : List Flight) (t : CrawlTask)
    (ph : WorkPhase) (h : ownerish ph = true) :
    owners (pre ++ ⟨t, ph⟩ :: post) = owners pre ++ t.url :: owners post := by
  rw [owners_append, owners_cons, h]
  simp

/-- `InvDedup` after an execution in an `ownerish` phase performs its
fetch (or, for `skipDownload`, abandons it) and moves to the non-owner
phase `ph'`; covers both the fetching steps and the skip step. -/
theorem invDedup_fetch_step (s : CrawlState) (pre post : List Flight)
    (t : CrawlTask) (ph ph' : WorkPhase) (hown : ownerish ph = true)
    (hown' : ownerish ph' = false)
    (ha : s.active = pre ++ ⟨t, ph⟩ :: post) (h : InvDedup s) :
    InvDedup { s with active := pre ++ ⟨t, ph'⟩ :: post,
                      fetched := t.url :: s.fetched } := by
  have hAold : owners s.active = owners pre ++ t.url :: owners post := by
    rw [ha, owners_middle_yes pre post t ph hown]
  have hAnew : owners (pre ++ ⟨t, ph'⟩ :: post) = owners pre ++ owners post :=
    owners_middle_not pre post t ph' hown'
  have hmem : t.url ∈ owners s.active := by
    rw [hAold]
    exact List.mem_append_right _ (List.mem_cons_self _ _)
  have hprop := h.ownersProp t.url hmem
  have hnotrest : t.url ∉ owners pre ++ owners post := by
    have := h.ownersNodup
    rw [hAold, List.nodup_middle] at this
    exact (List.nodup_cons.mp this).1
  refine ⟨?_, ?_, ?_, ?_⟩
  · exact List.nodup_cons.mpr ⟨hprop.2, h.fetchedNodup⟩
  · intro u hu
    rcases List.mem_cons.mp hu with rfl | hu
    · exact hprop.1
    · exact h.fetchedDone u hu
  · intro u hu
    rw [hAnew] at hu
    have huold : u ∈ owners s.active := by
      rw [hAold]
      rcases List.mem_append.mp hu with h1 | h1
      · exact List.mem_append_left _ h1
      · exact List.mem_append_right _ (List.mem_cons_of_mem _ h1)
    refine ⟨(h.ownersProp u huold).1, ?_⟩
    intro hin
    rcases List.mem_cons.mp hin with rfl | hin
    · exact hnotrest hu
    · exact (h.ownersProp u huold).2 hin
  · rw [hAnew]
    have := h.ownersNodup
    rw [hAold, List.nodup_middle] at this
    exact (List.nodup_cons.mp this).2

theorem invDedup_step {w : String → Option (List String × List String)}
    {s s' : CrawlState} (h : Step w s s') (hinv : InvDedup s) :
    InvDedup s' := by
  cases h with
  | pull t rest hq =>
    refine invDedup_same s _ rfl rfl ?_ hinv
    show owners (s.active ++ [⟨t, WorkPhase.pulled⟩]) = owners s.active
    rw [owners_append, owners_cons]
    simp [ownerish, owners]
  | countTask pre post t ha =>
    refine invDedup_same s _ rfl rfl ?_ hinv
    show owners (pre ++ ⟨t, WorkPhase.counted⟩ :: post) = owners s.active
    rw [ha, owners_middle_not pre post t WorkPhase.counted rfl,
      owners_middle_not pre post t WorkPhase.pulled rfl]
  | rcheckDup pre post t ha hd =>
    refine invDedup_same s _ rfl rfl ?_ hinv
    show owners (pre ++ ⟨t, WorkPhase.dupFound⟩ :: post) = owners s.active
    rw [ha, owners_middle_not pre post t WorkPhase.dupFound rfl,
      owners_middle_not pre post t WorkPhase.counted rfl]
  | rcheckNew pre post t ha hd =>
    refine invDedup_same s _ rfl rfl ?_ hinv
    show owners (pre ++ ⟨t, WorkPhase.checkedAbsent⟩ :: post) = owners s.active
    rw [ha, owners_middle_not pre post t WorkPhase.checkedAbsent rfl,
      owners_middle_not pre post t WorkPhase.counted rfl]
  | wcheckDup pre post t ha hd =>
    refine invDedup_same s _ rfl rfl ?_ hinv
    show owners (pre ++ ⟨t, WorkPhase.dupFound⟩ :: post) = owners s.active
    rw [ha, owners_middle_not pre post t WorkPhase.dupFound rfl,
      owners_middle_not pre post t WorkPhase.checkedAbsent rfl]
  | insertOwner pre post t ha hd =>
    have hAold : owners s.active = owners pre ++ owners post := by
      rw [ha, owners_middle_not pre post t WorkPhase.checkedAbsent rfl]
    have hAnew : owners (pre ++ ⟨t, .owner⟩ :: post) =
        owners pre ++ t.url :: owners post :=
      owners_middle_yes pre post t .owner rfl
    have hnotold : t.url ∉ owners pre ++ owners post := by
      intro hin
      have : t.url ∈ owners s.active := by rw [hAold]; exact hin
      exact hd (hinv.ownersProp t.url this).1
    refine ⟨hinv.fetchedNodup, ?_, ?_, ?_⟩
    · intro u hu
      exact List.mem_cons_of_mem _ (hinv.fetchedDone u hu)
    · intro u hu
      rw [hAnew] at hu
      rcases List.mem_append.mp hu with h1 | h1
      · have huold : u ∈ owners s.active := by
          rw [hAold]; exact List.mem_append_left _ h1
        exact ⟨List.mem_cons_of_mem _ (hinv.ownersProp u huold).1,
          (hinv.ownersProp u huold).2⟩
      · rcases List.mem_cons.mp h1 with rfl | h1
        · refine ⟨List.mem_cons_self _ _, ?_⟩
          intro hin
          exact hd (hinv.fetchedDone _ hin)
        · have huold : u ∈ owners s.active := by
            rw [hAold]; exact List.mem_append_right _ h1
          exact ⟨List.mem_cons_of_mem _ (hinv.ownersProp u huold).1,
            (hinv.ownersProp u huold).2⟩
    · rw [hAnew, List.nodup_middle]
      refine List.nodup_cons.mpr ⟨hnotold, ?_⟩
      rw [← hAold]
      exact hinv.ownersNodup
  | skipDownload pre post t ha hdl =>
    -- like a fetch step but leaving the fetch log unchanged
    have hAold : owners s.active = owners pre ++ t.url :: owners post := by
      rw [ha, owners_middle_yes pre post t .owner rfl]
    have hAnew : owners (pre ++ ⟨t, .preDone⟩ :: post) =
        owners pre ++ owners post :=
      owners_middle_not pre post t .preDone rfl
    refine ⟨hinv.fetchedNodup, hinv.fetchedDone, ?_, ?_⟩
    · intro u hu
      rw [hAnew] at hu
      have huold : u ∈ owners s.active := by
        rw [hAold]
        rcases List.mem_append.mp hu with h1 | h1
        · exact List.mem_append_left _ h1
        · exact List.mem_append_right _ (List.mem_cons_of_mem _ h1)
      exact hinv.ownersProp u huold
    · have := hinv.ownersNodup
      rw [hAold, List.nodup_middle] at this
      rw [hAnew]
      exact (List.nodup_cons.mp this).2
  | startDownload pre post t ha hdl =>
    refine invDedup_same s _ rfl rfl ?_ hinv
    show owners (pre ++ ⟨t, WorkPhase.dlFetch⟩ :: post) = owners s.active
    rw [ha, owners_middle_yes pre post t WorkPhase.dlFetch rfl,
      owners_middle_yes pre post t WorkPhase.owner rfl]
  | fetchDownload pre post t ha =>
    exact invDedup_fetch_step s pre post t .dlFetch .preDone rfl rfl ha hinv
  | fetchPageErr pre post t ha hdl hw =>
    exact invDedup_fetch_step s pre post t .owner .preDone rfl rfl ha hinv
  | fetchPageOk pre post t l d ha hdl hw =>
    exact invDedup_fetch_step s pre post t .owner (.gotPage l d) rfl rfl ha hinv
  | addTasks pre post t l d ha =>
    refine invDedup_same s _ rfl rfl ?_ hinv
    show owners (pre ++ ⟨t, WorkPhase.addedTasks l d⟩ :: post) = owners s.active
    rw [ha, owners_middle_not pre post t (WorkPhase.addedTasks l d) rfl,
      owners_middle_not pre post t (WorkPhase.gotPage l d) rfl]
  | addTotal pre post t l d ha =>
    refine invDedup_same s _ rfl rfl ?_ hinv
    show owners (pre ++ ⟨t, WorkPhase.countedTotal l d⟩ :: post) = owners s.active
    rw [ha, owners_middle_not pre post t (WorkPhase.countedTotal l d) rfl,
      owners_middle_not pre post t (WorkPhase.addedTasks l d) rfl]
  | spawnChildren pre post t l d ha =>
    refine invDedup_same s _ rfl rfl ?_ hinv
    show owners (pre ++ ⟨t, WorkPhase.preDone⟩ :: post) = owners s.active
    rw [ha, owners_middle_not pre post t WorkPhase.preDone rfl,
      owners_middle_not pre post t (WorkPhase.countedTotal l d) rfl]
  | finishDup pre post t ha =>
    refine invDedup_same s _ rfl rfl ?_ hinv
    show owners (pre ++ post) = owners s.active
    rw [ha, owners_middle_not pre post t WorkPhase.dupFound rfl, owners_append]
  | finishTask pre post t ha =>
    refine invDedup_same s _ rfl rfl ?_ hinv
    show owners (pre ++ post) = owners s.active
    rw [ha, owners_middle_not pre post t WorkPhase.preDone rfl, owners_append]
  | transfer bpre bpost c rest hb =>
    exact invDedup_same s _ rfl rfl rfl hinv

theorem invDedup_init (seeds : List String) : InvDedup (initState seeds) := by
  refine ⟨?_, ?_, ?_, ?_⟩ <;> simp [initState, owners]

theorem invDedup_reach {w : String → Option (List String × List String)}
    {seeds : List String} {s : CrawlState} (h : Reach w seeds s) :
    InvDedup s := by
  induction h with
  | refl => exact invDedup_init seeds
  | tail hr hstep ih => exact invDedup_step hstep ih

/-- C1: in every state any run can reach — whatever the page contents,
the seed list and the interleaving, including URLs discovered from
several parents or appearing both as link and as download target — the
log of issued HTTP fetches has no duplicate URL string: the
check-then-insert guard on the visited set makes each literal URL string
fetched at most once per run. -/
theorem fetch_at_most_once (w : String → Option (List String × List String))
    (seeds : List String) (s : CrawlState) (h : Reach w seeds s) :
    s.fetched.Nodup :=
  (invDedup_reach h).fetchedNodup

/-- C1 witness: the property at a concrete reachable state. -/
theorem fetch_at_most_once_witness :
    (initState ["https://x.test/"]).fetched.Nodup :=
  fetch_at_most_once (fun _ => none) ["https://x.test/"] _
    Relation.ReflTransGen.refl

/-! ### The counting invariant: the three uint64 counters

`tasks` (here `tasksVar`) is exactly the number of tasks anywhere in the
system — queued, buffered for enqueueing, or in flight, the latter
weighted so that children already added to the counter but not yet
buffered are included. The bound conjuncts show the counters stay below
2^64 (so the wrapping uint64 arithmetic is exact), and
`dlCount ≤ dlTotal` gives C9. -/

/-- How many units of `tasksVar` an in-flight execution accounts for:
itself, plus — between `tasks += n` (web.go:173) and the spawn of the
enqueue goroutine (web.go:180) — its still-unbuffered children. -/
def contrib : WorkPhase → Nat
  | .addedTasks l d => 1 + l.length + d.length
  | .countedTotal l d => 1 + l.length + d.length
  | _ => 1

/-- Children extracted but not yet added to `tasksVar` (phase between
web.go:167 and web.go:173). -/
def pendingT : WorkPhase → Nat
  | .gotPage l d => l.length + d.length
  | _ => 0

/-- Children extracted but not yet added to `dlTotal` (phase between
web.go:167 and web.go:174). -/
def pendingD : WorkPhase → Nat
  | .gotPage l d => l.length + d.length
  | .addedTasks l d => l.length + d.length
  | _ => 0

/-- Children already counted in `dlTotal` but not yet moved to a
pending buffer (phase between web.go:174 and web.go:180). -/
def ctChildren : WorkPhase → Nat
  | .countedTotal l d => l.length + d.length
  | _ => 0

/-- Whether the execution has not yet done `dlCount++` (web.go:135). -/
def isPulled : WorkPhase → Bool
  | .pulled => true
  | _ => false

/-- The URLs inside the phase data (the extracted children). -/
def phaseUrls : WorkPhase → List String
  | .gotPage l d => l ++ d
  | .addedTasks l d => l ++ d
  | .countedTotal l d => l ++ d
  | _ => []

/-- Total number of buffered child tasks. -/
def bufLen (s : CrawlState) : Nat := (s.buffers.map List.length).sum

def activeContrib (s : CrawlState) : Nat :=
  (s.active.map fun fl => contrib fl.phase).sum

/-- The true number of outstanding task units in the system. -/
def realOut (s : CrawlState) : Nat :=
  s.queue.length + bufLen s + activeContrib s

def pendT (s : CrawlState) : Nat :=
  (s.active.map fun fl => pendingT fl.phase).sum

def pendD (s : CrawlState) : Nat :=
  (s.active.map fun fl => pendingD fl.phase).sum

def ctSum (s : CrawlState) : Nat :=
  (s.active.map fun fl => ctChildren fl.phase).sum

def pulledCount (s : CrawlState) : Nat :=
  (s.active.filter fun fl => isPulled fl.phase).length

/-- Number of children the oracle extracts from a page URL. -/
def nchild (w : String → Option (List String × List String))
    (u : String) : Nat :=
  match w u with
  | some (l, d) => l.length + d.length
  | none => 0

/-- Total children of all pages fetched so far. -/
def fetchSum (w : String → Option (List String × List String))
    (s : CrawlState) : Nat :=
  (s.fetched.map (nchild w)).sum

/-- The crawl universe `U`: a finite, duplicate-free superset of the
reachable URL strings — it contains the seeds and is closed under the
oracle's extraction (claim C2's "finitely many distinct URL strings
reachable from the seeds"). -/
def ClosedUniverse (w : String → Option (List String × List String))
    (U : List String) (seeds : List String) : Prop :=
  U.Nodup ∧ (∀ u ∈ seeds, u ∈ U) ∧
    ∀ u ∈ U, ∀ l d, w u = some (l, d) →
      (∀ v ∈ l, v ∈ U) ∧ (∀ v ∈ d, v ∈ U)

theorem sum_map_le_of_nodup_subset (f : String → Nat) (xs U : List String)
    (hx : xs.Nodup) (hU : U.Nodup) (hsub : ∀ u ∈ xs, u ∈ U) :
    (xs.map f).sum ≤ (U.map f).sum := by
  rw [← List.sum_toFinset f hx, ← List.sum_toFinset f hU]
  apply Finset.sum_le_sum_of_subset
  intro x hxmem
  rw [List.mem_toFinset] at hxmem ⊢
  exact hsub x hxmem

/-- All invariants the counter claims rest on, relative to a closed
universe `U` and the seed count. -/
structure InvCount (w : String → Option (List String × List String))
    (U : List String) (seedCount : Nat) (s : CrawlState) : Prop where
  tasksEq : s.tasksVar = realOut s
  outBound : realOut s + pendT s ≤ seedCount + fetchSum w s
  dlCountLe : s.dlCount + s.queue.length + bufLen s + pulledCount s
      + ctSum s ≤ s.dlTotal
  dlTotalBound : s.dlTotal + pendD s ≤ seedCount + fetchSum w s
  doneU : ∀ u ∈ s.done, u ∈ U
  queueU : ∀ t ∈ s.queue, t.url ∈ U
  bufU : ∀ b ∈ s.buffers, ∀ t ∈ b, t.url ∈ U
  activeU : ∀ fl ∈ s.active, fl.task.url ∈ U
  childU : ∀ fl ∈ s.active, ∀ u ∈ phaseUrls fl.phase, u ∈ U

theorem fetchSum_le {w : String → Option (List String × List String)}
    {U : List String} {seedCount : Nat} {s : CrawlState} (hU : U.Nodup)
    (hd : InvDedup s) (hc : InvCount w U seedCount s) :
    fetchSum w s ≤ (U.map (nchild w)).sum :=
  sum_map_le_of_nodup_subset (nchild w) s.fetched U hd.fetchedNodup hU
    (fun u hu => hc.doneU u (hd.fetchedDone u hu))

theorem sum_map_middle {α : Type} (f : α → Nat) (pre post : List α)
    (x : α) :
    ((pre ++ x :: post).map f).sum =
      (pre.map f).sum + f x + (post.map f).sum := by
  simp [List.map_append, List.sum_append]
  omega

theorem sum_map_last {α : Type} (f : α → Nat) (l : List α) (x : α) :
    ((l ++ [x]).map f).sum = (l.map f).sum + f x := by
  simp [List.map_append, List.sum_append]

theorem length_filter_middle {α : Type} (p : α → Bool) (pre post : List α)
    (x : α) :
    ((pre ++ x :: post).filter p).length =
      (pre.filter p).length + (p x).toNat + (post.filter p).length := by
  rw [List.filter_append, List.filter_cons]
  by_cases h : p x = true
  · simp [h]
    omega
  · simp only [Bool.not_eq_true] at h
    simp [h]

theorem length_filter_last {α : Type} (p : α → Bool) (l : List α) (x : α) :
    ((l ++ [x]).filter p).length =
      (l.filter p).length + (p x).toNat := by
  rw [List.filter_append, List.filter_cons]
  by_cases h : p x = true
  · simp [h]
  · simp only [Bool.not_eq_true] at h
    simp [h]

/-- An in-flight execution changes phase and nothing else; the new phase
agrees with the old one on every accounting function. Covers the two
check steps, the re-check step, the skip step and the
predicate-pass step. -/
theorem invCount_phase_only {w : String → Option (List String × List String)}
    {U : List String} {seedCount : Nat} {s : CrawlState}
    (pre post : List Flight) (t : CrawlTask) (ph ph' : WorkPhase)
    (ha : s.active = pre ++ ⟨t, ph⟩ :: post)
    (h1 : contrib ph' = contrib ph) (h2 : pendingT ph' = pendingT ph)
    (h3 : pendingD ph' = pendingD ph) (h4 : ctChildren ph' = ctChildren ph)
    (h5 : isPulled ph' = isPulled ph) (h6 : phaseUrls ph' = phaseUrls ph)
    (hc : InvCount w U seedCount s) :
    InvCount w U seedCount { s with active := pre ++ ⟨t, ph'⟩ :: post } := by
  refine ⟨?_, ?_, ?_, ?_, hc.doneU, hc.queueU, hc.bufU, ?_, ?_⟩
  · have h0 := hc.tasksEq
    simp only [realOut, activeContrib, ha, sum_map_middle, List.map_nil, List.sum_nil, List.filter_nil,
        List.length_nil, h1] at h0 ⊢
    exact h0
  · have h0 := hc.outBound
    simp only [realOut, activeContrib, pendT, ha, sum_map_middle, List.map_nil, List.sum_nil, List.filter_nil,
        List.length_nil, h1, h2,
      fetchSum] at h0 ⊢
    exact h0
  · have h0 := hc.dlCountLe
    simp only [pulledCount, ctSum, ha, sum_map_middle, List.map_nil, List.sum_nil, List.filter_nil,
        List.length_nil,
      length_filter_middle, h4, h5] at h0 ⊢
    exact h0
  · have h0 := hc.dlTotalBound
    simp only [pendD, ha, sum_map_middle, List.map_nil, List.sum_nil, List.filter_nil,
        List.length_nil, h3, fetchSum] at h0 ⊢
    exact h0
  · intro fl hfl
    show fl.task.url ∈ U
    rcases List.mem_append.mp hfl with h | h
    · exact hc.activeU fl (by rw [ha]; exact List.mem_append_left _ h)
    · rcases List.mem_cons.mp h with rfl | h
      · exact hc.activeU ⟨t, ph⟩
          (by rw [ha]; exact List.mem_append_right _ (List.mem_cons_self _ _))
      · exact hc.activeU fl
          (by rw [ha]; exact List.mem_append_right _ (List.mem_cons_of_mem _ h))
  · intro fl hfl
    show ∀ u ∈ phaseUrls fl.phase, u ∈ U
    rcases List.mem_append.mp hfl with h | h
    · exact hc.childU fl (by rw [ha]; exact List.mem_append_left _ h)
    · rcases List.mem_cons.mp h with rfl | h
      · intro u hu
        rw [h6] at hu
        exact hc.childU ⟨t, ph⟩
          (by rw [ha]; exact List.mem_append_right _ (List.mem_cons_self _ _))
          u hu
      · exact hc.childU fl
          (by rw [ha]; exact List.mem_append_right _ (List.mem_cons_of_mem _ h))

theorem activeU_phase_change {U : List String} {s : CrawlState}
    {pre post : List Flight} {t : CrawlTask} {ph : WorkPhase}
    (ph' : WorkPhase) (ha : s.active = pre ++ ⟨t, ph⟩ :: post)
    (hact : ∀ fl ∈ s.active, fl.task.url ∈ U) :
    ∀ fl ∈ pre ++ ⟨t, ph'⟩ :: post, fl.task.url ∈ U := by
  intro fl hfl
  rcases List.mem_append.mp hfl with h | h
  · exact hact fl (by rw [ha]; exact List.mem_append_left _ h)
  · rcases List.mem_cons.mp h with rfl | h
    · exact hact ⟨t, ph⟩
        (by rw [ha]; exact List.mem_append_right _ (List.mem_cons_self _ _))
    · exact hact fl
        (by rw [ha]; exact List.mem_append_right _ (List.mem_cons_of_mem _ h))

theorem childU_phase_change {U : List String} {s : CrawlState}
    {pre post : List Flight} {t : CrawlTask} {ph : WorkPhase}
    (ph' : WorkPhase) (ha : s.active = pre ++ ⟨t, ph⟩ :: post)
    (hch : ∀ fl ∈ s.active, ∀ u ∈ phaseUrls fl.phase, u ∈ U)
    (hmid : ∀ u ∈ phaseUrls ph', u ∈ U) :
    ∀ fl ∈ pre ++ ⟨t, ph'⟩ :: post, ∀ u ∈ phaseUrls fl.phase, u ∈ U := by
  intro fl hfl
  rcases List.mem_append.mp hfl with h | h
  · exact hch fl (by rw [ha]; exact List.mem_append_left _ h)
  · rcases List.mem_cons.mp h with rfl | h
    · exact hmid
    · exact hch fl
        (by rw [ha]; exact List.mem_append_right _ (List.mem_cons_of_mem _ h))

theorem activeU_remove {U : List String} {s : CrawlState}
    {pre post : List Flight} {t : CrawlTask} {ph : WorkPhase}
    (ha : s.active = pre ++ ⟨t, ph⟩ :: post)
    (hact : ∀ fl ∈ s.active, fl.task.url ∈ U) :
    ∀ fl ∈ pre ++ post, fl.task.url ∈ U := by
  intro fl hfl
  rcases List.mem_append.mp hfl with h | h
  · exact hact fl (by rw [ha]; exact List.mem_append_left _ h)
  · exact hact fl
      (by rw [ha]; exact List.mem_append_right _ (List.mem_cons_of_mem _ h))

theorem childU_remove {U : List String} {s : CrawlState}
    {pre post : List Flight} {t : CrawlTask} {ph : WorkPhase}
    (ha : s.active = pre ++ ⟨t, ph⟩ :: post)
    (hch : ∀ fl ∈ s.active, ∀ u ∈ phaseUrls fl.phase, u ∈ U) :
    ∀ fl ∈ pre ++ post, ∀ u ∈ phaseUrls fl.phase, u ∈ U := by
  intro fl hfl
  rcases List.mem_append.mp hfl with h | h
  · exact hch fl (by rw [ha]; exact List.mem_append_left _ h)
  · exact hch fl
      (by rw [ha]; exact List.mem_append_right _ (List.mem_cons_of_mem _ h))

theorem sum_map_append2 {α : Type} (f : α → Nat) (a b : List α) :
    ((a ++ b).map f).sum = (a.map f).sum + (b.map f).sum := by
  simp [List.map_append, List.sum_append]

theorem length_filter_append2 {α : Type} (p : α → Bool) (a b : List α) :
    ((a ++ b).filter p).length = (a.filter p).length + (b.filter p).length := by
  simp [List.filter_append]

/-- The two `doDone()` steps: an in-flight execution in a terminal phase
(`dupFound` or `preDone`, both accounting for exactly one unit and no
children) leaves the system and `tasks` is decremented. -/
theorem invCount_finish {w : String → Option (List String × List String)}
    {U : List String} {seedCount : Nat} {s : CrawlState}
    (pre post : List Flight) (t : CrawlTask) (ph : WorkPhase)
    (ha : s.active = pre ++ ⟨t, ph⟩ :: post)
    (hcon : contrib ph = 1) (hpT : pendingT ph = 0) (hpD : pendingD ph = 0)
    (hct : ctChildren ph = 0) (hip : isPulled ph = false)
    (hbound : seedCount + (U.map (nchild w)).sum < U64)
    (hfs : fetchSum w s ≤ (U.map (nchild w)).sum)
    (hc : InvCount w U seedCount s) :
    InvCount w U seedCount
      { s with active := pre ++ post, tasksVar := dec64 s.tasksVar } := by
  set s' : CrawlState :=
    { s with active := pre ++ post, tasksVar := dec64 s.tasksVar } with hs'
  have hQ : s'.queue = s.queue := by rw [hs']
  have hB : s'.buffers = s.buffers := by rw [hs']
  have hA : s'.active = pre ++ post := by rw [hs']
  have hF : s'.fetched = s.fetched := by rw [hs']
  have hT : s'.tasksVar = dec64 s.tasksVar := by rw [hs']
  have hC : s'.dlCount = s.dlCount := by rw [hs']
  have hTot : s'.dlTotal = s.dlTotal := by rw [hs']
  have hD : s'.done = s.done := by rw [hs']
  have hACs : activeContrib s
      = (pre.map fun fl => contrib fl.phase).sum + 1
        + (post.map fun fl => contrib fl.phase).sum := by
    show (s.active.map fun fl => contrib fl.phase).sum = _
    rw [ha, sum_map_middle, hcon]
  have hROs : realOut s
      = s.queue.length + bufLen s
        + ((pre.map fun fl => contrib fl.phase).sum
          + (post.map fun fl => contrib fl.phase).sum) + 1 := by
    show s.queue.length + bufLen s + activeContrib s = _
    rw [hACs]
    omega
  have hROnew : realOut s'
      = s.queue.length + bufLen s
        + ((pre.map fun fl => contrib fl.phase).sum
          + (post.map fun fl => contrib fl.phase).sum) := by
    show s'.queue.length + bufLen s' + activeContrib s' = _
    rw [activeContrib, bufLen, hA, hQ, hB, sum_map_append2]
    rfl
  have hwrap : realOut s < U64 := by
    have h0 := hc.outBound
    omega
  have hdec : dec64 s.tasksVar = realOut s' := by
    rw [dec64, hc.tasksEq, hROs, hROnew]
    rw [hROs] at hwrap
    simp only [U64] at hwrap ⊢
    omega
  refine ⟨?_, ?_, ?_, ?_, ?_, ?_, ?_, ?_, ?_⟩
  · rw [hT, hdec]
  · have h0 := hc.outBound
    have hPTs : pendT s
        = (pre.map fun fl => pendingT fl.phase).sum
          + (post.map fun fl => pendingT fl.phase).sum := by
      show (s.active.map fun fl => pendingT fl.phase).sum = _
      rw [ha, sum_map_middle, hpT]
      omega
    have hPTn : pendT s'
        = (pre.map fun fl => pendingT fl.phase).sum
          + (post.map fun fl => pendingT fl.phase).sum := by
      show (s'.active.map fun fl => pendingT fl.phase).sum = _
      rw [hA, sum_map_append2]
    have hFSn : fetchSum w s' = fetchSum w s := by
      show (s'.fetched.map (nchild w)).sum = _
      rw [hF]
      rfl
    rw [hROnew, hPTn, hFSn]
    rw [hROs, hPTs] at h0
    omega
  · have h0 := hc.dlCountLe
    have hPUs : pulledCount s
        = (pre.filter fun fl => isPulled fl.phase).length
          + (post.filter fun fl => isPulled fl.phase).length := by
      show (s.active.filter fun fl => isPulled fl.phase).length = _
      rw [ha, length_filter_middle, hip, Bool.toNat_false]
      omega
    have hPUn : pulledCount s'
        = (pre.filter fun fl => isPulled fl.phase).length
          + (post.filter fun fl => isPulled fl.phase).length := by
      show (s'.active.filter fun fl => isPulled fl.phase).length = _
      rw [hA, length_filter_append2]
    have hCTs : ctSum s
        = (pre.map fun fl => ctChildren fl.phase).sum
          + (post.map fun fl => ctChildren fl.phase).sum := by
      show (s.active.map fun fl => ctChildren fl.phase).sum = _
      rw [ha, sum_map_middle, hct]
      omega
    have hCTn : ctSum s'
        = (pre.map fun fl => ctChildren fl.phase).sum
          + (post.map fun fl => ctChildren fl.phase).sum := by
      show (s'.active.map fun fl => ctChildren fl.phase).sum = _
      rw [hA, sum_map_append2]
    have hBL : bufLen s' = bufLen s := by
      show (s'.buffers.map List.length).sum = _
      rw [hB]
      rfl
    rw [hC, hQ, hBL, hPUn, hCTn, hTot]
    rw [hPUs, hCTs] at h0
    omega
  · have h0 := hc.dlTotalBound
    have hPDs : pendD s
        = (pre.map fun fl => pendingD fl.phase).sum
          + (post.map fun fl => pendingD fl.phase).sum := by
      show (s.active.map fun fl => pendingD fl.phase).sum = _
      rw [ha, sum_map_middle, hpD]
      omega
    have hPDn : pendD s'
        = (pre.map fun fl => pendingD fl.phase).sum
          + (post.map fun fl => pendingD fl.phase).sum := by
      show (s'.active.map fun fl => pendingD fl.phase).sum = _
      rw [hA, sum_map_append2]
    have hFSn : fetchSum w s' = fetchSum w s := by
      show (s'.fetched.map (nchild w)).sum = _
      rw [hF]
      rfl
    rw [hTot, hPDn, hFSn]
    rw [hPDs] at h0
    omega
  · rw [hD]
    exact hc.doneU
  · rw [hQ]
    exact hc.queueU
  · rw [hB]
    exact hc.bufU
  · rw [hA]
    exact activeU_remove ha hc.activeU
  · rw [hA]
    exact childU_remove ha hc.childU

/-- Preservation of the counting invariant by every step, given a
closed universe whose total child count stays below 2^64. -/
theorem invCount_step {w : String → Option (List String × List String)}
    {U : List String} {seedCount : Nat} {s s' : CrawlState}
    (hU : U.Nodup)
    (hclosed : ∀ u ∈ U, ∀ l d, w u = some (l, d) →
      (∀ v ∈ l, v ∈ U) ∧ (∀ v ∈ d, v ∈ U))
    (hbound : seedCount + (U.map (nchild w)).sum < U64)
    (h : Step w s s') (hd : InvDedup s) (hc : InvCount w U seedCount s) :
    InvCount w U seedCount s' := by
  have hfs : fetchSum w s ≤ (U.map (nchild w)).sum := fetchSum_le hU hd hc
  cases h with
  | pull t rest hq =>
    refine ⟨?_, ?_, ?_, ?_, hc.doneU, ?_, hc.bufU, ?_, ?_⟩
    · have h0 := hc.tasksEq
      simp only [realOut, activeContrib, bufLen, hq, sum_map_last,
        List.length_cons, contrib] at h0 ⊢
      omega
    · have h0 := hc.outBound
      simp only [realOut, activeContrib, bufLen, pendT, fetchSum, hq,
        sum_map_last, List.length_cons, contrib, pendingT] at h0 ⊢
      omega
    · have h0 := hc.dlCountLe
      simp only [pulledCount, ctSum, bufLen, hq, sum_map_last,
        length_filter_last, List.length_cons, ctChildren, isPulled,
        Bool.toNat_true, Bool.toNat_false] at h0 ⊢
      omega
    · have h0 := hc.dlTotalBound
      simp only [pendD, fetchSum, hq, sum_map_last, pendingD] at h0 ⊢
      omega
    · intro t' ht'
      exact hc.queueU t' (by rw [hq]; exact List.mem_cons_of_mem _ ht')
    · intro fl hfl
      rcases List.mem_append.mp hfl with h1 | h1
      · exact hc.activeU fl h1
      · rcases List.mem_cons.mp h1 with rfl | h1
        · exact hc.queueU t (by rw [hq]; exact List.mem_cons_self _ _)
        · exact absurd h1 (List.not_mem_nil _)
    · intro fl hfl
      rcases List.mem_append.mp hfl with h1 | h1
      · exact hc.childU fl h1
      · rcases List.mem_cons.mp h1 with rfl | h1
        · intro u hu
          simp [phaseUrls] at hu
        · exact absurd h1 (List.not_mem_nil _)
  | countTask pre post t ha =>
    have hp1 : 1 ≤ pulledCount s := by
      simp only [pulledCount, ha, length_filter_middle, isPulled,
        Bool.toNat_true]
      omega
    have hwrap : s.dlCount + 1 < U64 := by
      have h0 := hc.dlCountLe
      have h1 := hc.dlTotalBound
      omega
    have hinc : inc64 s.dlCount 1 = s.dlCount + 1 := by
      rw [inc64, Nat.mod_eq_of_lt hwrap]
    refine ⟨?_, ?_, ?_, ?_, hc.doneU, hc.queueU, hc.bufU,
      activeU_phase_change _ ha hc.activeU, ?_⟩
    · have h0 := hc.tasksEq
      simp only [realOut, activeContrib, bufLen, ha, sum_map_middle, List.map_nil, List.sum_nil, List.filter_nil,
        List.length_nil,
        contrib] at h0 ⊢
      omega
    · have h0 := hc.outBound
      simp only [realOut, activeContrib, bufLen, pendT, fetchSum, ha,
        sum_map_middle, List.map_nil, List.sum_nil, List.filter_nil,
        List.length_nil, contrib, pendingT] at h0 ⊢
      omega
    · have h0 := hc.dlCountLe
      simp only [pulledCount, ctSum, bufLen, ha, sum_map_middle, List.map_nil, List.sum_nil, List.filter_nil,
        List.length_nil,
        length_filter_middle, ctChildren, isPulled, Bool.toNat_true,
        Bool.toNat_false, hinc] at h0 ⊢
      omega
    · have h0 := hc.dlTotalBound
      simp only [pendD, fetchSum, ha, sum_map_middle, List.map_nil, List.sum_nil, List.filter_nil,
        List.length_nil, pendingD] at h0 ⊢
      omega
    · refine childU_phase_change _ ha hc.childU ?_
      intro u hu
      simp [phaseUrls] at hu
  | rcheckDup pre post t ha hdup =>
    exact invCount_phase_only pre post t _ _ ha rfl rfl rfl rfl rfl rfl hc
  | rcheckNew pre post t ha hdup =>
    exact invCount_phase_only pre post t _ _ ha rfl rfl rfl rfl rfl rfl hc
  | wcheckDup pre post t ha hdup =>
    exact invCount_phase_only pre post t _ _ ha rfl rfl rfl rfl rfl rfl hc
  | insertOwner pre post t ha hdup =>
    refine ⟨?_, ?_, ?_, ?_, ?_, hc.queueU, hc.bufU,
      activeU_phase_change _ ha hc.activeU,
      childU_phase_change _ ha hc.childU ?_⟩
    · have h0 := hc.tasksEq
      simp only [realOut, activeContrib, bufLen, ha, sum_map_middle, List.map_nil, List.sum_nil, List.filter_nil,
        List.length_nil,
        contrib] at h0 ⊢
      omega
    · have h0 := hc.outBound
      simp only [realOut, activeContrib, bufLen, pendT, fetchSum, ha,
        sum_map_middle, List.map_nil, List.sum_nil, List.filter_nil,
        List.length_nil, contrib, pendingT] at h0 ⊢
      omega
    · have h0 := hc.dlCountLe
      simp only [pulledCount, ctSum, bufLen, ha, sum_map_middle, List.map_nil, List.sum_nil, List.filter_nil,
        List.length_nil,
        length_filter_middle, ctChildren, isPulled, Bool.toNat_true,
        Bool.toNat_false] at h0 ⊢
      omega
    · have h0 := hc.dlTotalBound
      simp only [pendD, fetchSum, ha, sum_map_middle, List.map_nil, List.sum_nil, List.filter_nil,
        List.length_nil, pendingD] at h0 ⊢
      omega
    · intro u hu
      rcases List.mem_cons.mp hu with rfl | hu
      · exact hc.activeU ⟨t, .checkedAbsent⟩
          (by rw [ha]; exact List.mem_append_right _ (List.mem_cons_self _ _))
      · exact hc.doneU u hu
    · intro u hu
      simp [phaseUrls] at hu
  | skipDownload pre post t ha hdl =>
    exact invCount_phase_only pre post t _ _ ha rfl rfl rfl rfl rfl rfl hc
  | startDownload pre post t ha hdl =>
    exact invCount_phase_only pre post t _ _ ha rfl rfl rfl rfl rfl rfl hc
  | fetchDownload pre post t ha =>
    refine ⟨?_, ?_, ?_, ?_, hc.doneU, hc.queueU, hc.bufU,
      activeU_phase_change _ ha hc.activeU, ?_⟩
    · have h0 := hc.tasksEq
      simp only [realOut, activeContrib, bufLen, ha, sum_map_middle, List.map_nil, List.sum_nil, List.filter_nil,
        List.length_nil,
        contrib] at h0 ⊢
      omega
    · have h0 := hc.outBound
      simp only [realOut, activeContrib, bufLen, pendT, fetchSum, ha,
        sum_map_middle, List.map_nil, List.sum_nil, List.filter_nil,
        List.length_nil, contrib, pendingT, List.map_cons,
        List.sum_cons] at h0 ⊢
      omega
    · have h0 := hc.dlCountLe
      simp only [pulledCount, ctSum, bufLen, ha, sum_map_middle, List.map_nil, List.sum_nil, List.filter_nil,
        List.length_nil,
        length_filter_middle, ctChildren, isPulled, Bool.toNat_true,
        Bool.toNat_false] at h0 ⊢
      omega
    · have h0 := hc.dlTotalBound
      simp only [pendD, fetchSum, ha, sum_map_middle, List.map_nil, List.sum_nil, List.filter_nil,
        List.length_nil, pendingD,
        List.map_cons, List.sum_cons] at h0 ⊢
      omega
    · refine childU_phase_change _ ha hc.childU ?_
      intro u hu
      simp [phaseUrls] at hu
  | fetchPageErr pre post t ha hdl hw =>
    refine ⟨?_, ?_, ?_, ?_, hc.doneU, hc.queueU, hc.bufU,
      activeU_phase_change _ ha hc.activeU, ?_⟩
    · have h0 := hc.tasksEq
      simp only [realOut, activeContrib, bufLen, ha, sum_map_middle, List.map_nil, List.sum_nil, List.filter_nil,
        List.length_nil,
        contrib] at h0 ⊢
      omega
    · have h0 := hc.outBound
      simp only [realOut, activeContrib, bufLen, pendT, fetchSum, ha,
        sum_map_middle, List.map_nil, List.sum_nil, List.filter_nil,
        List.length_nil, contrib, pendingT, List.map_cons,
        List.sum_cons] at h0 ⊢
      omega
    · have h0 := hc.dlCountLe
      simp only [pulledCount, ctSum, bufLen, ha, sum_map_middle, List.map_nil, List.sum_nil, List.filter_nil,
        List.length_nil,
        length_filter_middle, ctChildren, isPulled, Bool.toNat_true,
        Bool.toNat_false] at h0 ⊢
      omega
    · have h0 := hc.dlTotalBound
      simp only [pendD, fetchSum, ha, sum_map_middle, List.map_nil, List.sum_nil, List.filter_nil,
        List.length_nil, pendingD,
        List.map_cons, List.sum_cons] at h0 ⊢
      omega
    · refine childU_phase_change _ ha hc.childU ?_
      intro u hu
      simp [phaseUrls] at hu
  | fetchPageOk pre post t l d ha hdl hw =>
    have hnc : nchild w t.url = l.length + d.length := by
      simp [nchild, hw]
    refine ⟨?_, ?_, ?_, ?_, hc.doneU, hc.queueU, hc.bufU,
      activeU_phase_change _ ha hc.activeU, ?_⟩
    · have h0 := hc.tasksEq
      simp only [realOut, activeContrib, bufLen, ha, sum_map_middle, List.map_nil, List.sum_nil, List.filter_nil,
        List.length_nil,
        contrib] at h0 ⊢
      omega
    · have h0 := hc.outBound
      simp only [realOut, activeContrib, bufLen, pendT, fetchSum, ha,
        sum_map_middle, List.map_nil, List.sum_nil, List.filter_nil,
        List.length_nil, contrib, pendingT, List.map_cons, List.sum_cons,
        hnc] at h0 ⊢
      omega
    · have h0 := hc.dlCountLe
      simp only [pulledCount, ctSum, bufLen, ha, sum_map_middle, List.map_nil, List.sum_nil, List.filter_nil,
        List.length_nil,
        length_filter_middle, ctChildren, isPulled, Bool.toNat_true,
        Bool.toNat_false] at h0 ⊢
      omega
    · have h0 := hc.dlTotalBound
      simp only [pendD, fetchSum, ha, sum_map_middle, List.map_nil, List.sum_nil, List.filter_nil,
        List.length_nil, pendingD,
        List.map_cons, List.sum_cons, hnc] at h0 ⊢
      omega
    · refine childU_phase_change _ ha hc.childU ?_
      intro u hu
      have hU1 := hclosed t.url
        (hc.activeU ⟨t, .owner⟩
          (by rw [ha]; exact List.mem_append_right _ (List.mem_cons_self _ _)))
        l d hw
      simp only [phaseUrls] at hu
      rcases List.mem_append.mp hu with h1 | h1
      · exact hU1.1 u h1
      · exact hU1.2 u h1
  | addTasks pre post t l d ha =>
    have hpT : l.length + d.length ≤ pendT s := by
      simp only [pendT, ha, sum_map_middle, List.map_nil, List.sum_nil, List.filter_nil,
        List.length_nil, pendingT]
      omega
    have hwrap : realOut s + (l.length + d.length) < U64 := by
      have h0 := hc.outBound
      omega
    have hinc : inc64 s.tasksVar (l.length + d.length) =
        realOut s + (l.length + d.length) := by
      rw [inc64, hc.tasksEq, Nat.mod_eq_of_lt hwrap]
    refine ⟨?_, ?_, ?_, ?_, hc.doneU, hc.queueU, hc.bufU,
      activeU_phase_change _ ha hc.activeU,
      childU_phase_change _ ha hc.childU ?_⟩
    · show inc64 s.tasksVar (l.length + d.length) = _
      rw [hinc]
      simp only [realOut, activeContrib, bufLen, ha, sum_map_middle, List.map_nil, List.sum_nil, List.filter_nil,
        List.length_nil,
        contrib]
      omega
    · have h0 := hc.outBound
      simp only [realOut, activeContrib, bufLen, pendT, fetchSum, ha,
        sum_map_middle, List.map_nil, List.sum_nil, List.filter_nil,
        List.length_nil, contrib, pendingT] at h0 ⊢
      omega
    · have h0 := hc.dlCountLe
      simp only [pulledCount, ctSum, bufLen, ha, sum_map_middle, List.map_nil, List.sum_nil, List.filter_nil,
        List.length_nil,
        length_filter_middle, ctChildren, isPulled, Bool.toNat_true,
        Bool.toNat_false] at h0 ⊢
      omega
    · have h0 := hc.dlTotalBound
      simp only [pendD, fetchSum, ha, sum_map_middle, List.map_nil, List.sum_nil, List.filter_nil,
        List.length_nil, pendingD] at h0 ⊢
      omega
    · intro u hu
      exact hc.childU ⟨t, .gotPage l d⟩
        (by rw [ha]; exact List.mem_append_right _ (List.mem_cons_self _ _))
        u hu
  | addTotal pre post t l d ha =>
    have hpD : l.length + d.length ≤ pendD s := by
      simp only [pendD, ha, sum_map_middle, List.map_nil, List.sum_nil, List.filter_nil,
        List.length_nil, pendingD]
      omega
    have hwrap : s.dlTotal + (l.length + d.length) < U64 := by
      have h0 := hc.dlTotalBound
      omega
    have hinc : inc64 s.dlTotal (l.length + d.length) =
        s.dlTotal + (l.length + d.length) := by
      rw [inc64, Nat.mod_eq_of_lt hwrap]
    refine ⟨?_, ?_, ?_, ?_, hc.doneU, hc.queueU, hc.bufU,
      activeU_phase_change _ ha hc.activeU,
      childU_phase_change _ ha hc.childU ?_⟩
    · have h0 := hc.tasksEq
      simp only [realOut, activeContrib, bufLen, ha, sum_map_middle, List.map_nil, List.sum_nil, List.filter_nil,
        List.length_nil,
        contrib] at h0 ⊢
      omega
    · have h0 := hc.outBound
      simp only [realOut, activeContrib, bufLen, pendT, fetchSum, ha,
        sum_map_middle, List.map_nil, List.sum_nil, List.filter_nil,
        List.length_nil, contrib, pendingT] at h0 ⊢
      omega
    · have h0 := hc.dlCountLe
      simp only [pulledCount, ctSum, bufLen, ha, sum_map_middle, List.map_nil, List.sum_nil, List.filter_nil,
        List.length_nil,
        length_filter_middle, ctChildren, isPulled, Bool.toNat_true,
        Bool.toNat_false, hinc] at h0 ⊢
      omega
    · have h0 := hc.dlTotalBound
      simp only [pendD, fetchSum, ha, sum_map_middle, List.map_nil, List.sum_nil, List.filter_nil,
        List.length_nil, pendingD,
        hinc] at h0 ⊢
      omega
    · intro u hu
      exact hc.childU ⟨t, .addedTasks l d⟩
        (by rw [ha]; exact List.mem_append_right _ (List.mem_cons_self _ _))
        u hu
  | spawnChildren pre post t l d ha =>
    have hch : (childTasks l d).length = d.length + l.length := by
      simp [childTasks]
    refine ⟨?_, ?_, ?_, ?_, hc.doneU, hc.queueU, ?_,
      activeU_phase_change _ ha hc.activeU,
      childU_phase_change _ ha hc.childU ?_⟩
    · have h0 := hc.tasksEq
      simp only [realOut, activeContrib, bufLen, ha, sum_map_middle, List.map_nil, List.sum_nil, List.filter_nil,
        List.length_nil,
        contrib, sum_map_last, hch] at h0 ⊢
      omega
    · have h0 := hc.outBound
      simp only [realOut, activeContrib, bufLen, pendT, fetchSum, ha,
        sum_map_middle, List.map_nil, List.sum_nil, List.filter_nil,
        List.length_nil, contrib, pendingT, sum_map_last, hch] at h0 ⊢
      omega
    · have h0 := hc.dlCountLe
      simp only [pulledCount, ctSum, bufLen, ha, sum_map_middle, List.map_nil, List.sum_nil, List.filter_nil,
        List.length_nil,
        length_filter_middle, ctChildren, isPulled, Bool.toNat_true,
        Bool.toNat_false, sum_map_last, hch] at h0 ⊢
      omega
    · have h0 := hc.dlTotalBound
      simp only [pendD, fetchSum, ha, sum_map_middle, List.map_nil, List.sum_nil, List.filter_nil,
        List.length_nil, pendingD] at h0 ⊢
      omega
    · intro b hb
      rcases List.mem_append.mp hb with h1 | h1
      · exact hc.bufU b h1
      · rcases List.mem_cons.mp h1 with rfl | h1
        · intro tk htk
          have hmid := hc.childU ⟨t, .countedTotal l d⟩
            (by rw [ha];
                exact List.mem_append_right _ (List.mem_cons_self _ _))
          simp only [childTasks] at htk
          rcases List.mem_append.mp htk with h2 | h2
          · rcases List.mem_map.mp h2 with ⟨u, hu, rfl⟩
            exact hmid u (by simp [phaseUrls]; exact Or.inr hu)
          · rcases List.mem_map.mp h2 with ⟨u, hu, rfl⟩
            exact hmid u (by simp [phaseUrls]; exact Or.inl hu)
        · exact absurd h1 (List.not_mem_nil _)
    · intro u hu
      simp [phaseUrls] at hu
  | finishDup pre post t ha =>
    exact invCount_finish pre post t _ ha rfl rfl rfl rfl rfl hbound hfs hc
  | finishTask pre post t ha =>
    exact invCount_finish pre post t _ ha rfl rfl rfl rfl rfl hbound hfs hc
  | transfer bpre bpost c rest hb =>
    refine ⟨?_, ?_, ?_, ?_, hc.doneU, ?_, ?_, hc.activeU, hc.childU⟩
    · have h0 := hc.tasksEq
      simp only [realOut, activeContrib, bufLen, hb, sum_map_middle, List.map_nil, List.sum_nil, List.filter_nil,
        List.length_nil,
        List.length_append, List.length_cons, List.length_nil] at h0 ⊢
      omega
    · have h0 := hc.outBound
      simp only [realOut, activeContrib, bufLen, pendT, fetchSum, hb,
        sum_map_middle, List.map_nil, List.sum_nil, List.filter_nil,
        List.length_nil, List.length_append, List.length_cons,
        List.length_nil] at h0 ⊢
      omega
    · have h0 := hc.dlCountLe
      simp only [pulledCount, ctSum, bufLen, hb, sum_map_middle, List.map_nil, List.sum_nil, List.filter_nil,
        List.length_nil,
        List.length_append, List.length_cons, List.length_nil] at h0 ⊢
      omega
    · have h0 := hc.dlTotalBound
      simp only [pendD, fetchSum, hb, sum_map_middle] at h0 ⊢
      exact h0
    · intro t' ht'
      rcases List.mem_append.mp ht' with h1 | h1
      · exact hc.queueU t' h1
      · have h2 : t' = c := List.mem_singleton.mp h1
        rw [h2]
        exact hc.bufU (c :: rest)
          (by rw [hb];
              exact List.mem_append_right _ (List.mem_cons_self _ _))
          c (List.mem_cons_self _ _)
    · intro b hbm
      rcases List.mem_append.mp hbm with h1 | h1
      · exact hc.bufU b (by rw [hb]; exact List.mem_append_left _ h1)
      · rcases List.mem_cons.mp h1 with h2 | h2
        · intro tk htk
          rw [h2] at htk
          exact hc.bufU (c :: rest)
            (by rw [hb];
                exact List.mem_append_right _ (List.mem_cons_self _ _))
            tk (List.mem_cons_of_mem _ htk)
        · exact hc.bufU b
            (by rw [hb];
                exact List.mem_append_right _ (List.mem_cons_of_mem _ h2))

theorem invCount_init (w : String → Option (List String × List String))
    (U : List String) (seeds : List String)
    (hseeds : ∀ u ∈ seeds, u ∈ U) :
    InvCount w U seeds.length (initState seeds) := by
  refine ⟨?_, ?_, ?_, ?_, ?_, ?_, ?_, ?_, ?_⟩
  · simp [initState, realOut, activeContrib, bufLen]
  · simp [initState, realOut, activeContrib, bufLen, pendT, fetchSum]
  · simp [initState, bufLen, pulledCount, ctSum]
  · simp [initState, pendD, fetchSum]
  · simp [initState]
  · intro t ht
    simp only [initState] at ht
    rcases List.mem_map.mp ht with ⟨u, hu, rfl⟩
    exact hseeds u hu
  · simp [initState]
  · simp [initState]
  · simp [initState]

theorem inv_reach {w : String → Option (List String × List String)}
    {seeds U : List String} {s : CrawlState}
    (hcu : ClosedUniverse w U seeds)
    (hbound : seeds.length + (U.map (nchild w)).sum < U64)
    (h : Reach w seeds s) :
    InvDedup s ∧ InvCount w U seeds.length s := by
  induction h with
  | refl => exact ⟨invDedup_init seeds, invCount_init w U seeds hcu.2.1⟩
  | tail hr hstep ih =>
    exact ⟨invDedup_step hstep ih.1,
      invCount_step hcu.1 hcu.2.2 hbound hstep ih.1 ih.2⟩

/-- C9: in every reachable state of a run over a finite closed universe,
the completed count never exceeds the total (`dlCount ≤ dlTotal`), so
every invocation of the progress sink — which passes the current values
of the two counters — reports `completed ≤ total`; and the total starts
at the number of seeds (web.go:105) and is raised by the number of newly
discovered children (web.go:174) before those children are enqueued
(web.go:180-209), so the denominator never under-reports the
numerator. -/
theorem progress_never_underreports
    (w : String → Option (List String × List String))
    (seeds U : List String) (s : CrawlState)
    (hcu : ClosedUniverse w U seeds)
    (hbound : seeds.length + (U.map (nchild w)).sum < U64)
    (h : Reach w seeds s) :
    s.dlCount ≤ s.dlTotal ∧ (initState seeds).dlTotal = seeds.length := by
  have hc := (inv_reach hcu hbound h).2
  have h0 := hc.dlCountLe
  exact ⟨by omega, rfl⟩

/-- C9 witness: the property at a concrete run. -/
theorem progress_never_underreports_witness :
    (initState ["https://x.test/"]).dlCount ≤
        (initState ["https://x.test/"]).dlTotal ∧
      (initState ["https://x.test/"]).dlTotal = ["https://x.test/"].length :=
  progress_never_underreports (fun _ => none) ["https://x.test/"]
    ["https://x.test/"] _
    ⟨by decide, by intro u hu; exact hu, fun u _ l d hw => by cases hw⟩
    (by simp [nchild]; decide)
    Relation.ReflTransGen.refl

/-! ### Completion, progress and termination -/

/-- Traversal completion: no task anywhere — the channel is empty, no
execution is in flight, and every enqueue goroutine has drained. -/
def Completed (s : CrawlState) : Prop :=
  s.queue = [] ∧ s.active = [] ∧ ∀ b ∈ s.buffers, b = []

theorem contrib_pos (ph : WorkPhase) : 1 ≤ contrib ph := by
  cases ph <;> simp [contrib] <;> omega

/-- The outstanding count is zero exactly at completion. -/
theorem realOut_zero_iff (s : CrawlState) : realOut s = 0 ↔ Completed s := by
  constructor
  · intro h
    rw [realOut] at h
    refine ⟨List.length_eq_zero.mp (by omega), ?_, ?_⟩
    · cases ha : s.active with
      | nil => rfl
      | cons fl rest =>
        exfalso
        have h1 : 1 ≤ activeContrib s := by
          rw [activeContrib, ha, List.map_cons, List.sum_cons]
          have := contrib_pos fl.phase
          omega
        omega
    · intro b hb
      have h1 : bufLen s = 0 := by omega
      rw [bufLen] at h1
      have h2 := (List.sum_eq_zero_iff).mp h1 b.length
        (List.mem_map.mpr ⟨b, hb, rfl⟩)
      exact List.length_eq_zero.mp h2
  · intro ⟨hq, ha, hb⟩
    rw [realOut, activeContrib, bufLen, hq, ha]
    simp only [List.length_nil, List.map_nil, List.sum_nil]
    have : ∀ x ∈ s.buffers.map List.length, x = 0 := by
      intro x hx
      rcases List.mem_map.mp hx with ⟨b, hbm, rfl⟩
      rw [hb b hbm]
      rfl
    rw [List.sum_eq_zero this]
    omega

/-- A completed state is stuck: no step can fire, so the counter stays
at zero forever — zero is hit exactly once, at completion. -/
theorem completed_stuck {w : String → Option (List String × List String)}
    {s : CrawlState} (hcomp : Completed s) (s' : CrawlState) :
    ¬ Step w s s' := by
  intro hstep
  obtain ⟨hq, ha, hb⟩ := hcomp
  cases hstep with
  | pull t rest hq2 => rw [hq] at hq2; cases hq2
  | countTask pre post t ha2 =>
    rw [ha] at ha2; exact absurd ha2.symm (List.append_ne_nil_of_right_ne_nil _ (by simp))
  | rcheckDup pre post t ha2 hd =>
    rw [ha] at ha2; exact absurd ha2.symm (List.append_ne_nil_of_right_ne_nil _ (by simp))
  | rcheckNew pre post t ha2 hd =>
    rw [ha] at ha2; exact absurd ha2.symm (List.append_ne_nil_of_right_ne_nil _ (by simp))
  | wcheckDup pre post t ha2 hd =>
    rw [ha] at ha2; exact absurd ha2.symm (List.append_ne_nil_of_right_ne_nil _ (by simp))
  | insertOwner pre post t ha2 hd =>
    rw [ha] at ha2; exact absurd ha2.symm (List.append_ne_nil_of_right_ne_nil _ (by simp))
  | skipDownload pre post t ha2 hdl =>
    rw [ha] at ha2; exact absurd ha2.symm (List.append_ne_nil_of_right_ne_nil _ (by simp))
  | startDownload pre post t ha2 hdl =>
    rw [ha] at ha2; exact absurd ha2.symm (List.append_ne_nil_of_right_ne_nil _ (by simp))
  | fetchDownload pre post t ha2 =>
    rw [ha] at ha2; exact absurd ha2.symm (List.append_ne_nil_of_right_ne_nil _ (by simp))
  | fetchPageErr pre post t ha2 hdl hw =>
    rw [ha] at ha2; exact absurd ha2.symm (List.append_ne_nil_of_right_ne_nil _ (by simp))
  | fetchPageOk pre post t l d ha2 hdl hw =>
    rw [ha] at ha2; exact absurd ha2.symm (List.append_ne_nil_of_right_ne_nil _ (by simp))
  | addTasks pre post t l d ha2 =>
    rw [ha] at ha2; exact absurd ha2.symm (List.append_ne_nil_of_right_ne_nil _ (by simp))
  | addTotal pre post t l d ha2 =>
    rw [ha] at ha2; exact absurd ha2.symm (List.append_ne_nil_of_right_ne_nil _ (by simp))
  | spawnChildren pre post t l d ha2 =>
    rw [ha] at ha2; exact absurd ha2.symm (List.append_ne_nil_of_right_ne_nil _ (by simp))
  | finishDup pre post t ha2 =>
    rw [ha] at ha2; exact absurd ha2.symm (List.append_ne_nil_of_right_ne_nil _ (by simp))
  | finishTask pre post t ha2 =>
    rw [ha] at ha2; exact absurd ha2.symm (List.append_ne_nil_of_right_ne_nil _ (by simp))
  | transfer bpre bpost c rest hb2 =>
    have hmem : (c :: rest) ∈ s.buffers := by
      rw [hb2]; exact List.mem_append_right _ (List.mem_cons_self _ _)
    cases hb _ hmem

/-- A state that is not completed always has an enabled step: the run
cannot get stuck before the counter reaches zero. -/
theorem not_completed_step (w : String → Option (List String × List String))
    (s : CrawlState) (hnc : ¬ Completed s) : ∃ s', Step w s s' := by
  cases hq : s.queue with
  | cons t rest => exact ⟨_, Step.pull s t rest hq⟩
  | nil =>
  cases ha : s.active with
  | cons fl rest =>
    obtain ⟨t, ph⟩ := fl
    have ha2 : s.active = [] ++ ⟨t, ph⟩ :: rest := by rw [ha]; rfl
    cases ph with
    | pulled => exact ⟨_, Step.countTask s [] rest t ha2⟩
    | counted =>
      by_cases hd : t.url ∈ s.done
      · exact ⟨_, Step.rcheckDup s [] rest t ha2 hd⟩
      · exact ⟨_, Step.rcheckNew s [] rest t ha2 hd⟩
    | dupFound => exact ⟨_, Step.finishDup s [] rest t ha2⟩
    | checkedAbsent =>
      by_cases hd : t.url ∈ s.done
      · exact ⟨_, Step.wcheckDup s [] rest t ha2 hd⟩
      · exact ⟨_, Step.insertOwner s [] rest t ha2 hd⟩
    | owner =>
      cases hdl : t.download with
      | true => exact ⟨_, Step.skipDownload s [] rest t ha2 hdl⟩
      | false =>
        cases hw : w t.url with
        | none => exact ⟨_, Step.fetchPageErr s [] rest t ha2 hdl hw⟩
        | some p =>
          exact ⟨_, Step.fetchPageOk s [] rest t p.1 p.2 ha2 hdl
            (by rw [hw])⟩
    | dlFetch => exact ⟨_, Step.fetchDownload s [] rest t ha2⟩
    | gotPage l d => exact ⟨_, Step.addTasks s [] rest t l d ha2⟩
    | addedTasks l d => exact ⟨_, Step.addTotal s [] rest t l d ha2⟩
    | countedTotal l d => exact ⟨_, Step.spawnChildren s [] rest t l d ha2⟩
    | preDone => exact ⟨_, Step.finishTask s [] rest t ha2⟩
  | nil =>
    have hbuf : ∃ b ∈ s.buffers, b ≠ [] := by
      by_contra hall
      push_neg at hall
      exact hnc ⟨hq, ha, hall⟩
    obtain ⟨b, hbm, hbne⟩ := hbuf
    obtain ⟨bpre, bpost, hb2⟩ := List.append_of_mem hbm
    cases hbb : b with
    | nil => exact absurd hbb hbne
    | cons c rest =>
      rw [hbb] at hb2
      exact ⟨_, Step.transfer s bpre bpost c rest hb2⟩

/-! ### Termination: a strictly decreasing measure

Every step strictly decreases `crawlMeasure`: a task loses weight as it
advances through its phases, a not-yet-visited URL of the universe pays
for the children the oracle will extract from it when it is inserted
into the visited set, and a buffered child loses weight when it moves to
the channel. Since the measure is a natural number, no run takes
infinitely many steps. -/

/-- Weight of an in-flight execution, by phase; the owner of a page URL
still carries the weight of the children its fetch will produce. -/
def phaseW (w : String → Option (List String × List String))
    (t : CrawlTask) : WorkPhase → Nat
  | .pulled => 8
  | .counted => 7
  | .dupFound => 2
  | .checkedAbsent => 6
  | .owner => if t.download then 5 else 10 * nchild w t.url + 5
  | .dlFetch => 4
  | .gotPage l d => 10 * (l.length + d.length) + 4
  | .addedTasks l d => 10 * (l.length + d.length) + 3
  | .countedTotal l d => 10 * (l.length + d.length) + 2
  | .preDone => 1

/-- Weight of a universe URL not yet in the visited set. -/
def urlW (w : String → Option (List String × List String))
    (u : String) : Nat :=
  10 * nchild w u + 11

/-- The termination measure of a state. -/
def crawlMeasure (w : String → Option (List String × List String))
    (U : List String) (s : CrawlState) : Nat :=
  ((U.filter fun u => decide (u ∉ s.done)).map (urlW w)).sum
    + 9 * s.queue.length + 10 * bufLen s
    + (s.active.map fun fl => phaseW w fl.task fl.phase).sum

theorem sum_filter_mono (f : String → Nat) (p q : String → Bool)
    (hpq : ∀ v, p v = true → q v = true) :
    ∀ xs : List String,
      ((xs.filter p).map f).sum ≤ ((xs.filter q).map f).sum := by
  intro xs
  induction xs with
  | nil => simp
  | cons x xs ih =>
    rw [List.filter_cons, List.filter_cons]
    by_cases hp : p x = true
    · rw [if_pos hp, if_pos (hpq x hp)]
      simp only [List.map_cons, List.sum_cons]
      omega
    · rw [if_neg hp]
      by_cases hq : q x = true
      · rw [if_pos hq]
        simp only [List.map_cons, List.sum_cons]
        omega
      · rw [if_neg hq]
        exact ih

/-- Inserting a universe URL into the visited set removes at least its
weight from the unvisited-sum. -/
theorem sum_filter_insert (f : String → Nat) (U done : List String)
    (u : String) (hu : u ∈ U) (hnd : u ∉ done) :
    ((U.filter fun v => decide (v ∉ u :: done)).map f).sum + f u
      ≤ ((U.filter fun v => decide (v ∉ done)).map f).sum := by
  induction U with
  | nil => cases hu
  | cons x xs ih =>
    rw [List.filter_cons, List.filter_cons]
    rcases List.mem_cons.mp hu with hx | hx
    · have h1 : ¬ ((decide (x ∉ u :: done)) = true) := by
        simp [← hx]
      have h2 : (decide (x ∉ done)) = true := by
        rw [← hx]
        simpa using hnd
      rw [if_neg h1, if_pos h2]
      simp only [List.map_cons, List.sum_cons]
      have hmono := sum_filter_mono f (fun v => decide (v ∉ u :: done))
        (fun v => decide (v ∉ done))
        (fun v hv => by
          simp only [decide_eq_true_eq, List.mem_cons, not_or] at hv ⊢
          exact hv.2) xs
      rw [← hx]
      omega
    · have ihx := ih hx
      by_cases hxd : (decide (x ∉ u :: done)) = true
      · have hxd2 : (decide (x ∉ done)) = true := by
          simp only [decide_eq_true_eq, List.mem_cons, not_or] at hxd ⊢
          exact hxd.2
        rw [if_pos hxd, if_pos hxd2]
        simp only [List.map_cons, List.sum_cons]
        omega
      · by_cases hxd2 : (decide (x ∉ done)) = true
        · rw [if_neg hxd, if_pos hxd2]
          simp only [List.map_cons, List.sum_cons]
          omega
        · rw [if_neg hxd, if_neg hxd2]
          exact ihx

/-- Every step strictly decreases the measure. -/
theorem crawlMeasure_decreases
    {w : String → Option (List String × List String)}
    {U : List String} {seedCount : Nat} {s s' : CrawlState}
    (hstep : Step w s s') (hc : InvCount w U seedCount s) :
    crawlMeasure w U s' < crawlMeasure w U s := by
  cases hstep with
  | pull t rest hq =>
    simp only [crawlMeasure, bufLen, hq, sum_map_last, phaseW,
      List.length_cons]
    omega
  | countTask pre post t ha =>
    simp only [crawlMeasure, bufLen, ha, sum_map_middle, List.map_nil,
      List.sum_nil, List.filter_nil, List.length_nil, phaseW]
    omega
  | rcheckDup pre post t ha hd =>
    simp only [crawlMeasure, bufLen, ha, sum_map_middle, List.map_nil,
      List.sum_nil, List.filter_nil, List.length_nil, phaseW]
    omega
  | rcheckNew pre post t ha hd =>
    simp only [crawlMeasure, bufLen, ha, sum_map_middle, List.map_nil,
      List.sum_nil, List.filter_nil, List.length_nil, phaseW]
    omega
  | wcheckDup pre post t ha hd =>
    simp only [crawlMeasure, bufLen, ha, sum_map_middle, List.map_nil,
      List.sum_nil, List.filter_nil, List.length_nil, phaseW]
    omega
  | insertOwner pre post t ha hd =>
    have huU : t.url ∈ U := hc.activeU ⟨t, .checkedAbsent⟩
      (by rw [ha]; exact List.mem_append_right _ (List.mem_cons_self _ _))
    have hins := sum_filter_insert (urlW w) U s.done t.url huU hd
    rw [urlW] at hins
    simp only [crawlMeasure, bufLen, ha, sum_map_middle, List.map_nil,
      List.sum_nil, List.filter_nil, List.length_nil, phaseW]
    cases hdl : t.download with
    | true =>
      simp only [hdl, eq_self_iff_true, if_true]
      omega
    | false =>
      simp only [hdl, Bool.false_eq_true, if_false]
      omega
  | skipDownload pre post t ha hdl =>
    simp only [crawlMeasure, bufLen, ha, sum_map_middle, List.map_nil,
      List.sum_nil, List.filter_nil, List.length_nil, phaseW, hdl,
      eq_self_iff_true, if_true]
    omega
  | startDownload pre post t ha hdl =>
    simp only [crawlMeasure, bufLen, ha, sum_map_middle, List.map_nil,
      List.sum_nil, List.filter_nil, List.length_nil, phaseW, hdl,
      eq_self_iff_true, if_true]
    omega
  | fetchDownload pre post t ha =>
    simp only [crawlMeasure, bufLen, ha, sum_map_middle, List.map_nil,
      List.sum_nil, List.filter_nil, List.length_nil, phaseW]
    omega
  | fetchPageErr pre post t ha hdl hw =>
    simp only [crawlMeasure, bufLen, ha, sum_map_middle, List.map_nil,
      List.sum_nil, List.filter_nil, List.length_nil, phaseW, hdl,
      Bool.false_eq_true, if_false, nchild, hw]
    omega
  | fetchPageOk pre post t l d ha hdl hw =>
    simp only [crawlMeasure, bufLen, ha, sum_map_middle, List.map_nil,
      List.sum_nil, List.filter_nil, List.length_nil, phaseW, hdl,
      Bool.false_eq_true, if_false, nchild, hw]
    omega
  | addTasks pre post t l d ha =>
    simp only [crawlMeasure, bufLen, ha, sum_map_middle, List.map_nil,
      List.sum_nil, List.filter_nil, List.length_nil, phaseW]
    omega
  | addTotal pre post t l d ha =>
    simp only [crawlMeasure, bufLen, ha, sum_map_middle, List.map_nil,
      List.sum_nil, List.filter_nil, List.length_nil, phaseW]
    omega
  | spawnChildren pre post t l d ha =>
    have hch : (childTasks l d).length = d.length + l.length := by
      simp [childTasks]
    simp only [crawlMeasure, bufLen, ha, sum_map_middle, List.map_nil,
      List.sum_nil, List.filter_nil, List.length_nil, phaseW,
      sum_map_last, hch]
    omega
  | finishDup pre post t ha =>
    simp only [crawlMeasure, bufLen, ha, sum_map_middle, sum_map_append2,
      List.map_nil, List.sum_nil, List.filter_nil, List.length_nil,
      List.map_cons, List.sum_cons, phaseW]
    omega
  | finishTask pre post t ha =>
    simp only [crawlMeasure, bufLen, ha, sum_map_middle, sum_map_append2,
      List.map_nil, List.sum_nil, List.filter_nil, List.length_nil,
      List.map_cons, List.sum_cons, phaseW]
    omega
  | transfer bpre bpost c rest hb =>
    simp only [crawlMeasure, bufLen, hb, sum_map_middle, List.map_nil,
      List.sum_nil, List.filter_nil, List.length_nil, List.length_cons,
      List.length_append]
    omega

/-- C2: for a run with no cancellation over a finite closed universe of
URL strings (cyclic and self-referential link graphs included, since
`U` may be arbitrarily cross-linked) whose total child count fits in a
uint64:

* in every reachable state the `tasks` counter equals the exact number
  of outstanding task units, so the wrapping `uint64` decrement is
  always matched by an earlier increment and the counter never goes
  negative;
* the counter is zero exactly in the completed states — and a completed
  state is stuck while a non-completed state always has an enabled step,
  so zero is reached exactly once, at traversal completion, and never
  before;
* no execution takes infinitely many steps: the visited-set guard
  bounds the work, so the run terminates finitely. -/
theorem tasks_counter_exact
    (w : String → Option (List String × List String))
    (seeds U : List String)
    (hcu : ClosedUniverse w U seeds)
    (hbound : seeds.length + (U.map (nchild w)).sum < U64) :
    (∀ s, Reach w seeds s →
      s.tasksVar = realOut s ∧
      (s.tasksVar = 0 ↔ Completed s) ∧
      (Completed s → ∀ s', ¬ Step w s s') ∧
      (¬ Completed s → ∃ s', Step w s s')) ∧
    (∀ f : Nat → CrawlState, f 0 = initState seeds →
      (∀ k, Step w (f k) (f (k + 1))) → False) := by
  constructor
  · intro s h
    have hc := (inv_reach hcu hbound h).2
    refine ⟨hc.tasksEq, ?_, fun hcomp s' => completed_stuck hcomp s',
      not_completed_step w s⟩
    rw [hc.tasksEq]
    exact realOut_zero_iff s
  · intro f h0 hsteps
    have hreach : ∀ k, Reach w seeds (f k) := by
      intro k
      induction k with
      | zero =>
        rw [h0]
        exact Relation.ReflTransGen.refl
      | succ k ih => exact Relation.ReflTransGen.tail ih (hsteps k)
    have hdecr : ∀ k, crawlMeasure w U (f (k + 1)) < crawlMeasure w U (f k) :=
      fun k => crawlMeasure_decreases (hsteps k)
        (inv_reach hcu hbound (hreach k)).2
    have hle : ∀ k, crawlMeasure w U (f k) + k ≤ crawlMeasure w U (f 0) := by
      intro k
      induction k with
      | zero => omega
      | succ k ih =>
        have := hdecr k
        omega
    have := hle (crawlMeasure w U (f 0) + 1)
    omega

/-- C2 witness: the counter equality at a concrete run. -/
theorem tasks_counter_exact_witness :
    (initState ["https://x.test/"]).tasksVar =
      realOut (initState ["https://x.test/"]) :=
  ((tasks_counter_exact (fun _ => none) ["https://x.test/"]
      ["https://x.test/"]
      ⟨by decide, fun u hu => hu, fun u _ l d hw => by cases hw⟩
      (by simp [nchild]; decide)).1 _ Relation.ReflTransGen.refl).1

end Webdl
